import Mathlib

/-!
# Device-to-host table conversion (`cpp/src/interop/cudf_to_arrow.cpp`)

A shallow embedding of `cudf::detail::cudf_to_arrow` and of the helpers it is
built from (`fetch_data_buffer`, `fetch_mask_buffer`, `dispatch_to_arrow`),
followed by theorems about them.

Conventions of the embedding

* Device and host memory are byte lists (`List Nat`, one entry per byte).  A
  pointer into a device allocation is the allocation together with a byte (or
  element) position; reading past the end of the listed bytes yields `0`.
* Exceptions (`CUDF_EXPECTS`, `CUDF_FAIL`) and undefined behaviour that the
  source can reach (indexing a vector past its end, reading through a null
  pointer) are results `Except.error`.
* The host memory pool never runs out of memory, and the asynchronous copies
  are read after the stream has been synchronised, so a copy is modelled by
  its final effect on the destination.
-/

deriving instance DecidableEq for Except

namespace cudf

/-- Failure kinds of the conversion. -/
inductive error where
  /-- The check `CUDF_EXPECTS(column_names.size() == input.num_columns(), ...)` failed. -/
  | schema_mismatch
  /-- The failure `CUDF_FAIL("Only fixed width and compund types are supported")`. -/
  | unsupported_type
  /-- Indexing `_children[i]` or `child_arrays[i]` past the end. -/
  | out_of_bounds
  /-- Copying a non-empty range from a null device pointer. -/
  | null_pointer
  /-- The recursion budget of the embedding was exhausted (never happens for
  the budget `type_dispatcher` passes, see `type_dispatcher_ne_out_of_fuel`). -/
  | out_of_fuel
  deriving DecidableEq, Repr

/-- Modelled from the spec: the element type tags of `cudf/types.hpp` (the
header is not part of the sources at hand). -/
inductive type_id where
  | EMPTY
  | INT8 | INT16 | INT32 | INT64
  | UINT8 | UINT16 | UINT32 | UINT64
  | FLOAT32 | FLOAT64
  | BOOL8
  | TIMESTAMP_DAYS | TIMESTAMP_SECONDS | TIMESTAMP_MILLISECONDS
  | TIMESTAMP_MICROSECONDS | TIMESTAMP_NANOSECONDS
  | DURATION_DAYS | DURATION_SECONDS | DURATION_MILLISECONDS
  | DURATION_MICROSECONDS | DURATION_NANOSECONDS
  | DICTIONARY32
  | STRING
  | LIST
  deriving DecidableEq, Repr

/-- The overload of `dispatch_to_arrow::operator()` that the type dispatcher
selects for a tag: the `enable_if` conditions at lines 97, 108, 131, 153, 174. -/
inductive category where
  /-- The condition `is_fixed_width<T>()`, with `sizeof(T)`. -/
  | fixed_width (sizeof_T : Nat)
  /-- The condition `std::is_same<T, cudf::string_view>`. -/
  | string_view
  /-- The condition `std::is_same<T, cudf::dictionary32>`. -/
  | dictionary32
  /-- The condition `std::is_same<T, cudf::list_view>`. -/
  | list_view
  /-- Neither fixed width nor compound. -/
  | other
  deriving DecidableEq, Repr

/-- Modelled from the spec: which overload a type tag selects, and `sizeof(T)`
of the fixed-width element types (`cudf/utilities/traits.hpp` and
`type_dispatcher.hpp` are not part of the sources at hand). -/
def type_id.category : type_id → category
  | .EMPTY => .other
  | .INT8 => .fixed_width 1
  | .INT16 => .fixed_width 2
  | .INT32 => .fixed_width 4
  | .INT64 => .fixed_width 8
  | .UINT8 => .fixed_width 1
  | .UINT16 => .fixed_width 2
  | .UINT32 => .fixed_width 4
  | .UINT64 => .fixed_width 8
  | .FLOAT32 => .fixed_width 4
  | .FLOAT64 => .fixed_width 8
  | .BOOL8 => .fixed_width 1
  | .TIMESTAMP_DAYS => .fixed_width 4
  | .TIMESTAMP_SECONDS => .fixed_width 8
  | .TIMESTAMP_MILLISECONDS => .fixed_width 8
  | .TIMESTAMP_MICROSECONDS => .fixed_width 8
  | .TIMESTAMP_NANOSECONDS => .fixed_width 8
  | .DURATION_DAYS => .fixed_width 4
  | .DURATION_SECONDS => .fixed_width 8
  | .DURATION_MILLISECONDS => .fixed_width 8
  | .DURATION_MICROSECONDS => .fixed_width 8
  | .DURATION_NANOSECONDS => .fixed_width 8
  | .DICTIONARY32 => .dictionary32
  | .STRING => .string_view
  | .LIST => .list_view

/-- Modelled from the spec: `cudf::column_view`, the non-owning description of
a device column (`cudf/column/column_view.hpp` is not part of the sources at
hand): type tag, element count, the bytes of the data allocation (`head`), the
bytes of the null-mask allocation (`none` for a null pointer), null count,
element offset, and the child views. -/
inductive column_view where
  | mk (type : type_id) (size : Nat) (head : List Nat) (null_mask : Option (List Nat))
      (null_count : Nat) (offset : Nat) (children : List column_view) : column_view

namespace column_view

/-- The type tag, `type().id()`. -/
def type : column_view → type_id
  | mk t _ _ _ _ _ _ => t

/-- The element count, `size()`. -/
def size : column_view → Nat
  | mk _ n _ _ _ _ _ => n

/-- The data allocation, `head()`. -/
def head : column_view → List Nat
  | mk _ _ d _ _ _ _ => d

/-- The null-mask allocation, `null_mask()`. -/
def null_mask : column_view → Option (List Nat)
  | mk _ _ _ m _ _ _ => m

/-- The null count, `null_count()`. -/
def null_count : column_view → Nat
  | mk _ _ _ _ c _ _ => c

/-- The element offset, `offset()`. -/
def offset : column_view → Nat
  | mk _ _ _ _ _ o _ => o

/-- The child views. -/
def children : column_view → List column_view
  | mk _ _ _ _ _ _ cs => cs

/-- The number of children, `num_children()`. -/
def num_children (v : column_view) : Nat := v.children.length

/-- The indexed child `child(i)`, which is `_children[i]` without a bounds check. -/
def child (v : column_view) (i : Nat) : Except error column_view :=
  match v.children.get? i with
  | some c => .ok c
  | none => .error .out_of_bounds

/-- The view has nulls, `has_nulls()`: `null_count() > 0`. -/
def has_nulls (v : column_view) : Bool := decide (0 < v.null_count)

end column_view

/-- One byte of device memory at position `i` of an allocation. -/
def device_byte (p : List Nat) (i : Nat) : Nat := p.getD i 0

/-- The `count` bytes of a device allocation that start at byte `start`. -/
def device_read (p : List Nat) (start count : Nat) : List Nat :=
  (List.range count).map fun i => device_byte p (start + i)

/-- Modelled from the spec: `cudf::bit_is_set`, bit `i` of a bitmask counted
from the least significant bit of the first byte. -/
def bit_is_set (bitmask : List Nat) (i : Nat) : Bool :=
  device_byte bitmask (i / 8) / 2 ^ (i % 8) % 2 == 1

/-- Modelled from the spec: the logical validity of element `i` of a view,
`is_valid(i)`: a view without a null mask has no nulls, otherwise bit
`offset + i` of the mask decides. -/
def column_view.is_valid (v : column_view) (i : Nat) : Bool :=
  match v.null_mask with
  | none => true
  | some m => bit_is_set m (v.offset + i)

/-- Modelled from the spec: `cudf::bitmask_allocation_size_bytes` with its
default padding boundary of 64 bytes (`bitmap_bytes` in the spec). -/
def bitmask_allocation_size_bytes (number_of_bits : Nat) : Nat :=
  ((number_of_bits + 7) / 8 + 63) / 64 * 64

/-- The byte that packs the eight bits `bits (8 * j) .. bits (8 * j + 7)`,
least significant first. -/
def pack_byte (bits : Nat → Bool) (j : Nat) : Nat :=
  ((List.range 8).map fun b => if bits (8 * j + b) then 2 ^ b else 0).sum

/-- Modelled from the spec: `cudf::copy_bitmask(mask, begin_bit, end_bit)`, the
freshly materialized, offset-normalized copy of a bitmap: bit `j` of the copy
is bit `begin_bit + j` of the source, for every bit of the padded allocation
of `end_bit - begin_bit` bits. -/
def copy_bitmask (mask : List Nat) (begin_bit end_bit : Nat) : List Nat :=
  (List.range (bitmask_allocation_size_bytes (end_bit - begin_bit))).map
    (pack_byte fun j => bit_is_set mask (begin_bit + j))

/-- Modelled from the spec: `cudf::copy_bitmask(view)`, the copy of the bits
`[offset, offset + size)` of the view's mask; an empty buffer, whose `data()`
is null, for a view without a mask. -/
def column_view.copy_bitmask (v : column_view) : Option (List Nat) :=
  v.null_mask.map fun m => cudf.copy_bitmask m v.offset (v.offset + v.size)

end cudf

namespace arrow

/-- An `arrow::Buffer` allocated from a memory pool: `size` is the logical
byte length `size_`, `data` holds all `capacity_` bytes. -/
structure Buffer where
  size : Nat
  data : List Nat
  deriving DecidableEq, Repr

/-- The capacity of a buffer, `capacity_`. -/
def Buffer.capacity (b : Buffer) : Nat := b.data.length

/-- The helper `BitUtil::RoundUpToMultipleOf64`. -/
def RoundUpToMultipleOf64 (n : Nat) : Nat := (n + 63) / 64 * 64

/-- The helper `BitUtil::BytesForBits`. -/
def BytesForBits (bits : Nat) : Nat := (bits + 7) / 8

/-- The pool allocation `arrow::AllocateBuffer(pool, size, &out)`: `size`
logical bytes in an allocation whose capacity is rounded up to a multiple of
64.  The fresh contents are modelled as zero bytes. -/
def AllocateBuffer (size : Nat) : Buffer :=
  ⟨size, List.replicate (RoundUpToMultipleOf64 size) 0⟩

/-- The pool allocation `arrow::AllocateBitmap(pool, length, &out)`: a buffer
of `BytesForBits(length)` bytes. -/
def AllocateBitmap (length : Nat) : Buffer := AllocateBuffer (BytesForBits length)

/-- The method `Buffer::ZeroPadding()` of the Arrow library, documented as
"Zero bytes in padding, i.e. bytes between size_ and capacity_" and
implemented as `memset(mutable_data() + size_, 0, capacity_ - size_)`: the
`size_` logical bytes, the last of them included, are left as they are. -/
def Buffer.ZeroPadding (b : Buffer) : Buffer :=
  ⟨b.size, b.data.take b.size ++ List.replicate (b.data.length - b.size) 0⟩

/-- Bit `i` of a buffer read as a validity bitmap, least significant bit of
byte 0 first. -/
def Buffer.bit (b : Buffer) (i : Nat) : Bool :=
  b.data.getD (i / 8) 0 / 2 ^ (i % 8) % 2 == 1

/-- The logical bytes of a buffer, the first `size_` ones. -/
def Buffer.bytes (b : Buffer) : List Nat := b.data.take b.size

/-- The first `n` 32-bit little-endian integers stored in a buffer. -/
def Buffer.int32_values (b : Buffer) (n : Nat) : List Nat :=
  (List.range n).map fun i =>
    b.data.getD (4 * i) 0 + 256 * b.data.getD (4 * i + 1) 0
      + 65536 * b.data.getD (4 * i + 2) 0 + 16777216 * b.data.getD (4 * i + 3) 0

/-- The value types `arrow::DataType` that the conversion produces. -/
inductive DataType where
  /-- The Arrow type of a fixed-width column with the given tag. -/
  | primitive (id : cudf.type_id)
  /-- The type `arrow::utf8()` of a `StringArray`. -/
  | string
  /-- The type `arrow::list(value_type)`. -/
  | list (value_type : DataType)
  /-- The type `arrow::dictionary(index_type, value_type)`. -/
  | dictionary (index_type value_type : DataType)
  deriving DecidableEq, Repr

/-- The host arrays `arrow::Array` that the conversion produces.  A buffer
argument is a `shared_ptr`, `none` when null; `null_count` is `-1` for
`kUnknownNullCount`. -/
inductive Array where
  /-- A fixed-width array made by `to_arrow_array(id, length, data, null_bitmap, null_count)`. -/
  | primitive (id : cudf.type_id) (length : Nat) (data : Option Buffer)
      (null_bitmap : Option Buffer) (null_count : Int)
  /-- The constructor `StringArray(length, value_offsets, data, null_bitmap, null_count)`. -/
  | string (length : Nat) (value_offsets : Option Buffer) (data : Option Buffer)
      (null_bitmap : Option Buffer) (null_count : Int)
  /-- The constructor `DictionaryArray(type, indices, dictionary)`. -/
  | dictionary (type : DataType) (indices : Array) (dictionary : Array)
  /-- The constructor `ListArray(type, length, value_offsets, values, null_bitmap, null_count)`. -/
  | list (type : DataType) (length : Nat) (value_offsets : Option Buffer) (values : Array)
      (null_bitmap : Option Buffer) (null_count : Int)
  deriving DecidableEq, Repr

namespace Array

/-- The value type of an array, `type()`. -/
def type : Array → DataType
  | primitive id _ _ _ _ => .primitive id
  | string _ _ _ _ _ => .string
  | dictionary t _ _ => t
  | list t _ _ _ _ _ => t

/-- The element count of an array, `length()`. -/
def length : Array → Nat
  | primitive _ n _ _ _ => n
  | string n _ _ _ _ => n
  | dictionary _ indices _ => indices.length
  | list _ n _ _ _ _ => n

/-- The null count an array was built with. -/
def null_count : Array → Int
  | primitive _ _ _ _ c => c
  | string _ _ _ _ c => c
  | dictionary _ indices _ => indices.null_count
  | list _ _ _ _ _ c => c

/-- The validity buffer of an array, `data()->buffers[0]`. -/
def null_bitmap : Array → Option Buffer
  | primitive _ _ _ m _ => m
  | string _ _ _ m _ => m
  | dictionary _ indices _ => indices.null_bitmap
  | list _ _ _ _ m _ => m

/-- The buffer `data()->buffers[1]` of an array: the data buffer of a
fixed-width array, the offsets buffer of a string or list array, and the
indices data of a dictionary array. -/
def buffers1 : Array → Option Buffer
  | primitive _ _ d _ _ => d
  | string _ o _ _ _ => o
  | dictionary _ indices _ => indices.buffers1
  | list _ _ o _ _ _ => o

end Array

/-- A schema field `arrow::field(name, type)`. -/
structure Field where
  name : String
  type : DataType
  deriving DecidableEq, Repr

/-- A table `arrow::Table::Make(arrow::schema(fields), arrays)`. -/
structure Table where
  schema : List Field
  columns : List Array
  deriving DecidableEq, Repr

end arrow

namespace cudf

open arrow

/-- The call `cudaMemcpyAsync(dst->mutable_data(), src + start, count,
cudaMemcpyDeviceToHost, stream)`, by its effect once the stream is
synchronised: the first `count` bytes of the destination are the `count`
source bytes. -/
def cudaMemcpyAsync (dst : Buffer) (src : List Nat) (start count : Nat) : Buffer :=
  ⟨dst.size, device_read src start count ++ dst.data.drop count⟩

/-- The function `fetch_data_buffer<T>` (lines 31-48), with `sizeof_T` for
`sizeof(T)`; `input_view.data<T>()` is `head<T>() + offset()`. -/
def fetch_data_buffer (sizeof_T : Nat) (input_view : column_view) : Buffer :=
  let data_size_in_bytes := sizeof_T * input_view.size
  let data_buffer := AllocateBuffer data_size_in_bytes
  cudaMemcpyAsync data_buffer input_view.head (sizeof_T * input_view.offset) data_size_in_bytes

/-- The function `fetch_mask_buffer` (lines 50-75).  The result `none` is the
null pointer returned for a view without nulls. -/
def fetch_mask_buffer (input_view : column_view) : Except error (Option Buffer) :=
  let mask_size_in_bytes := bitmask_allocation_size_bytes input_view.size
  if input_view.has_nulls then
    let mask_buffer := AllocateBitmap input_view.size
    let src := if input_view.offset > 0 then input_view.copy_bitmask else input_view.null_mask
    match src with
    | some p => .ok (some (cudaMemcpyAsync mask_buffer p 0 mask_size_in_bytes).ZeroPadding)
    | none =>
      if mask_size_in_bytes = 0 then .ok (some mask_buffer.ZeroPadding)
      else .error .null_pointer
  else
    .ok none

/-- Modelled from the spec: `to_arrow_array(id, length, data, mask, null_count)`
of `cudf/detail/interop.hpp` (not part of the sources at hand), which builds
the fixed-width host array of a type tag from its buffers. -/
def to_arrow_array (id : type_id) (length : Nat) (data mask : Option Buffer)
    (null_count : Int) : Array :=
  .primitive id length data mask null_count

/-- Element `i` of a device allocation of 32-bit little-endian integers. -/
def read_int32 (p : List Nat) (i : Nat) : Nat :=
  device_byte p (4 * i) + 256 * device_byte p (4 * i + 1)
    + 65536 * device_byte p (4 * i + 2) + 16777216 * device_byte p (4 * i + 3)

/-- The four bytes of a 32-bit little-endian integer. -/
def write_int32 (x : Nat) : List Nat :=
  [x % 256, x / 256 % 256, x / 65536 % 256, x / 16777216 % 256]

/-- Modelled from the spec: `cudf::count_unset_bits(mask, begin, end)`. -/
def count_unset_bits (mask : List Nat) (begin_bit end_bit : Nat) : Nat :=
  ((List.range (end_bit - begin_bit)).filter fun i => !bit_is_set mask (begin_bit + i)).length

/-- The null count of the rows `[begin, end)` of a child column. -/
def column_view.null_count_of_range (c : column_view) (begin_row end_row : Nat) : Nat :=
  match c.null_mask with
  | none => 0
  | some m => count_unset_bits m begin_row end_row

/-- The offsets child of a materialized string or list column: the
`size + 1` offsets of the rows `[offset, offset + size]` of the offsets child
`c0`, rebased to start at `0`. -/
def column_view.sliced_offsets (c0 : column_view) (offset size : Nat) : column_view :=
  let first := read_int32 c0.head (c0.offset + offset)
  .mk .INT32 (size + 1)
    (((List.range (size + 1)).map fun i =>
      write_int32 (read_int32 c0.head (c0.offset + offset + i) - first)).flatten)
    none 0 0 []

/-- Modelled from the spec: the deep copy that `cudf::column(column_view)`
makes (`cudf/column/column.hpp` is not part of the sources at hand), as the
view of the copy.  `materialize v offset size null_count` copies the rows
`[offset, offset + size)` of the storage of `v` into fresh allocations "with
offset collapsed to zero", and its children with it, so that the children
are "sized consistently with the parent": the offsets child of a string or
list column has `size + 1` entries, the indices child of a dictionary column
has `size` entries.  An unsupported type tag fails. -/
def column_view.materialize : column_view → Nat → Nat → Nat → Except error column_view
  | .mk type _ head null_mask _ _ children, offset, size, null_count =>
    let mask := null_mask.map fun m => cudf.copy_bitmask m offset (offset + size)
    match type.category with
    | .other => .error .unsupported_type
    | .fixed_width w =>
      .ok (.mk type size (device_read head (w * offset) (w * size)) mask null_count 0 [])
    | .string_view =>
      match children with
      | [] => .ok (.mk type size [] mask null_count 0 [])
      | [_] => .error .out_of_bounds
      | c0 :: c1 :: _ =>
        let first := read_int32 c0.head (c0.offset + offset)
        let last := read_int32 c0.head (c0.offset + offset + size)
        .ok (.mk type size [] mask null_count 0
          [c0.sliced_offsets offset size,
           .mk .INT8 (last - first) (device_read c1.head (c1.offset + first) (last - first))
             none 0 0 []])
    | .list_view =>
      match children with
      | [] => .ok (.mk type size [] mask null_count 0 [])
      | [_] => .error .out_of_bounds
      | c0 :: c1 :: _ =>
        let first := read_int32 c0.head (c0.offset + offset)
        let last := read_int32 c0.head (c0.offset + offset + size)
        match materialize c1 (c1.offset + first) (last - first)
            (c1.null_count_of_range (c1.offset + first) (c1.offset + last)) with
        | .error e => .error e
        | .ok values =>
          .ok (.mk type size [] mask null_count 0 [c0.sliced_offsets offset size, values])
    | .dictionary32 =>
      match children with
      | [] => .ok (.mk type size [] mask null_count 0 [])
      | [_] => .error .out_of_bounds
      | c0 :: c1 :: _ =>
        match materialize c0 (c0.offset + offset) size 0 with
        | .error e => .error e
        | .ok indices =>
          match materialize c1 c1.offset c1.size c1.null_count with
          | .error e => .error e
          | .ok keys => .ok (.mk type size [] mask null_count 0 [indices, keys])

/-- The statement `std::make_unique<cudf::column>(input)` followed by
`tmp_column->view()`: the view of the materialized copy of `input`. -/
def column_from_view (input : column_view) : Except error column_view :=
  input.materialize input.offset input.size input.null_count

/-- Lines 111-116, 134-139 and 156-161: the view `input_view` that a compound
converter works on.  The input is copied when its offset is not zero or when
`input.child(0).size() - extra != input.size()` in the signed arithmetic of
`size_type`; `extra` is `1` for strings and lists and `0` for dictionaries.
The test reads `input.child(0)` whenever the offset is zero. -/
def normalize (extra : Int) (input : column_view) : Except error column_view :=
  if input.offset ≠ 0 then column_from_view input
  else
    match input.child 0 with
    | .error e => .error e
    | .ok c0 =>
      if (c0.size : Int) - extra ≠ (input.size : Int) then column_from_view input
      else .ok input

/-- The element access `child_arrays[i]` of a `std::vector`. -/
def vector_at (child_arrays : List Array) (i : Nat) : Except error Array :=
  match child_arrays.get? i with
  | some a => .ok a
  | none => .error .out_of_bounds

/-- The algorithm `std::transform(first, last, std::back_inserter(out), op)` over
column views, for an operation that may throw: the results in order, or the
first failure. -/
def transform (op : column_view → Except error Array) :
    List column_view → Except error (List Array)
  | [] => .ok []
  | c :: cs =>
    match op c with
    | .error e => .error e
    | .ok a =>
      match transform op cs with
      | .error e => .error e
      | .ok arrays => .ok (a :: arrays)

namespace dispatch_to_arrow

/-- The method `fetch_child_array` (lines 78-94): the conversions of the
children `input_view.child(0)`, ..., `input_view.child(num_children - 1)` in
order, `convert` being the type dispatcher that the lambda re-enters. -/
def fetch_child_array (convert : column_view → Except error Array) (input_view : column_view) :
    Except error (List Array) :=
  transform convert input_view.children

/-- The overload for fixed-width types (lines 96-105). -/
def fixed_width (sizeof_T : Nat) (input_view : column_view) (id : type_id) :
    Except error Array :=
  match fetch_mask_buffer input_view with
  | .error e => .error e
  | .ok mask =>
    .ok (to_arrow_array id input_view.size (some (fetch_data_buffer sizeof_T input_view)) mask
      input_view.null_count)

/-- The overload for `cudf::string_view` (lines 107-128). -/
def string_view (convert : column_view → Except error Array) (input : column_view) :
    Except error Array :=
  match normalize 1 input with
  | .error e => .error e
  | .ok input_view =>
    match fetch_child_array convert input_view with
    | .error e => .error e
    | .ok child_arrays =>
      if child_arrays.length = 0 then .ok (.string 0 none none none (-1))
      else
        match vector_at child_arrays 0 with
        | .error e => .error e
        | .ok a0 =>
          match vector_at child_arrays 1 with
          | .error e => .error e
          | .ok a1 =>
            match fetch_mask_buffer input_view with
            | .error e => .error e
            | .ok mask =>
              .ok (.string input_view.size a0.buffers1 a1.buffers1 mask input_view.null_count)

/-- The overload for `cudf::dictionary32` (lines 130-150). -/
def dictionary32 (convert : column_view → Except error Array) (input : column_view) :
    Except error Array :=
  match normalize 0 input with
  | .error e => .error e
  | .ok input_view =>
    match fetch_child_array convert input_view with
    | .error e => .error e
    | .ok child_arrays =>
      match vector_at child_arrays 0 with
      | .error e => .error e
      | .ok a0 =>
        match fetch_mask_buffer input_view with
        | .error e => .error e
        | .ok mask =>
          let indices := to_arrow_array .INT32 input_view.size a0.buffers1 mask
            input_view.null_count
          match vector_at child_arrays 1 with
          | .error e => .error e
          | .ok dictionary =>
            .ok (.dictionary (.dictionary indices.type dictionary.type) indices dictionary)

/-- The overload for `cudf::list_view` (lines 152-171). -/
def list_view (convert : column_view → Except error Array) (input : column_view) :
    Except error Array :=
  match normalize 1 input with
  | .error e => .error e
  | .ok input_view =>
    match fetch_child_array convert input_view with
    | .error e => .error e
    | .ok child_arrays =>
      match vector_at child_arrays 0 with
      | .error e => .error e
      | .ok a0 =>
        match vector_at child_arrays 1 with
        | .error e => .error e
        | .ok data =>
          match fetch_mask_buffer input_view with
          | .error e => .error e
          | .ok mask =>
            .ok (.list (.list data.type) input_view.size a0.buffers1 data mask
              input_view.null_count)

end dispatch_to_arrow

/-- The call `type_dispatcher(c.type(), dispatch_to_arrow{}, c, c.type().id(),
ar_mr, stream)` with a recursion budget: the overload selected by the type
tag, its children converted with the budget reduced by one.  The last arm is
the fallback overload (lines 173-178). -/
def type_dispatcher_fuel : Nat → column_view → Except error Array
  | 0, _ => .error .out_of_fuel
  | fuel + 1, c =>
    match c.type.category with
    | .fixed_width sizeof_T => dispatch_to_arrow.fixed_width sizeof_T c c.type
    | .string_view => dispatch_to_arrow.string_view (type_dispatcher_fuel fuel) c
    | .dictionary32 => dispatch_to_arrow.dictionary32 (type_dispatcher_fuel fuel) c
    | .list_view => dispatch_to_arrow.list_view (type_dispatcher_fuel fuel) c
    | .other => .error .unsupported_type

mutual
/-- The nesting depth of a view: one more than the deepest child. -/
def column_view.depth : column_view → Nat
  | .mk _ _ _ _ _ _ children => depth_list children + 1
/-- The largest nesting depth in a list of views. -/
def depth_list : List column_view → Nat
  | [] => 0
  | c :: cs => max c.depth (depth_list cs)
end

/-- The call `type_dispatcher(c.type(), dispatch_to_arrow{}, c, c.type().id(),
ar_mr, stream)`: the budget `depth + 1` covers every nested call. -/
def type_dispatcher (c : column_view) : Except error Array :=
  type_dispatcher_fuel (c.depth + 1) c

/-- A table view: its columns in order. -/
abbrev table_view := List column_view

namespace detail

/-- The function `detail::cudf_to_arrow` (lines 183-207): the check of the
names, the conversion of the columns in order, the fields from the arrays and
the names, and the table. -/
def cudf_to_arrow (input : table_view) (column_names : List String) : Except error Table :=
  if column_names.length = input.length then
    match transform type_dispatcher input with
    | .error e => .error e
    | .ok arrays =>
      let fields := List.zipWith (fun array name => arrow.Field.mk name array.type) arrays column_names
      .ok ⟨fields, arrays⟩
  else
    .error .schema_mismatch

end detail

/-- The public entry point `cudf::cudf_to_arrow` (lines 210-217). -/
def cudf_to_arrow (input : table_view) (column_names : List String) : Except error Table :=
  detail.cudf_to_arrow input column_names

/-- A fixed-width child without nulls, as the offsets, characters and indices
children are. -/
def column_view.is_plain (c : column_view) (id : type_id) : Bool :=
  c.type == id && c.null_count == 0

/-- A well-formed view of a supported type: a null mask is there when the null
count is not zero; a strings view has an `INT32` offsets child and an `INT8`
character child; a list view has an `INT32` offsets child and a well-formed
values child; a dictionary view has an `INT32` indices child and a
well-formed keys child. -/
def column_view.well_formed : column_view → Bool
  | .mk type _ _ null_mask null_count _ children =>
    (null_count == 0 || null_mask.isSome) &&
    match type.category with
    | .other => false
    | .fixed_width _ => true
    | .string_view =>
      match children with
      | [c0, c1] => c0.is_plain .INT32 && c1.is_plain .INT8
      | _ => false
    | .list_view =>
      match children with
      | [c0, c1] => c0.is_plain .INT32 && well_formed c1
      | _ => false
    | .dictionary32 =>
      match children with
      | [c0, c1] => c0.is_plain .INT32 && well_formed c1
      | _ => false

/-- A view holds a column of unsupported type: the view itself, or, at any
depth, the values child of a list column or the indices or keys child of a
dictionary column. -/
inductive contains_unsupported : column_view → Prop where
  | here (v : column_view) : v.type.category = .other → contains_unsupported v
  | list_values (v c0 c1 : column_view) (rest : List column_view) :
      v.type.category = .list_view → v.children = c0 :: c1 :: rest →
      contains_unsupported c1 → contains_unsupported v
  | dictionary_indices (v c0 c1 : column_view) (rest : List column_view) :
      v.type.category = .dictionary32 → v.children = c0 :: c1 :: rest →
      contains_unsupported c0 → contains_unsupported v
  | dictionary_keys (v c0 c1 : column_view) (rest : List column_view) :
      v.type.category = .dictionary32 → v.children = c0 :: c1 :: rest →
      contains_unsupported c1 → contains_unsupported v

/-! ## Example inputs -/

/-- Rows 0..2 of the five-row column `[1, null, 3, 4, 5]`: the view
`slice(column, 0, 3)` shares the allocations of the column, and the first
byte of the column's mask is `0b00011101`. -/
def sliced_view : column_view :=
  .mk .INT8 3 ([1, 2, 3, 4, 5] ++ List.replicate 59 0) (some (29 :: List.replicate 63 0)) 1 0 []

/-- The empty strings column: no rows and no children. -/
def empty_strings_view : column_view := .mk .STRING 0 [] none 0 0 []

/-- The column `[1, 2, 3]` of 32-bit integers, without nulls. -/
def int32_view : column_view :=
  .mk .INT32 3 [1, 0, 0, 0, 2, 0, 0, 0, 3, 0, 0, 0] none 0 0 []

/-- The strings column `["a", null, "ccc"]`: offsets `[0, 1, 1, 4]`, characters
`accc`, mask `0b101`. -/
def strings_view : column_view :=
  .mk .STRING 3 [] (some (5 :: List.replicate 63 0)) 1 0
    [.mk .INT32 4 [0, 0, 0, 0, 1, 0, 0, 0, 1, 0, 0, 0, 4, 0, 0, 0] none 0 0 [],
     .mk .INT8 4 [97, 99, 99, 99] none 0 0 []]

/-- Rows 1..2 of `strings_view`, the view `slice(column, 1, 3)`. -/
def sliced_strings_view : column_view :=
  .mk .STRING 2 [] (some (5 :: List.replicate 63 0)) 1 1
    [.mk .INT32 4 [0, 0, 0, 0, 1, 0, 0, 0, 1, 0, 0, 0, 4, 0, 0, 0] none 0 0 [],
     .mk .INT8 4 [97, 99, 99, 99] none 0 0 []]

/-- The list column `[[1, 2], [], [3]]`: offsets `[0, 2, 2, 3]` over the values
`[1, 2, 3]`. -/
def list_view_example : column_view :=
  .mk .LIST 3 [] none 0 0
    [.mk .INT32 4 [0, 0, 0, 0, 2, 0, 0, 0, 2, 0, 0, 0, 3, 0, 0, 0] none 0 0 [], int32_view]

/-- The strings column `["x", "y"]`. -/
def keys_view : column_view :=
  .mk .STRING 2 [] none 0 0
    [.mk .INT32 3 [0, 0, 0, 0, 1, 0, 0, 0, 2, 0, 0, 0] none 0 0 [],
     .mk .INT8 2 [120, 121] none 0 0 []]

/-- The dictionary column with keys `["x", "y"]` and indices `[1, 0, 1]`. -/
def dictionary_view : column_view :=
  .mk .DICTIONARY32 3 [] none 0 0
    [.mk .INT32 3 [1, 0, 0, 0, 0, 0, 0, 0, 1, 0, 0, 0] none 0 0 [], keys_view]

/-- A list column of one row whose values child has the type tag `EMPTY`. -/
def list_of_empty_view : column_view :=
  .mk .LIST 1 [] none 0 0
    [.mk .INT32 2 [0, 0, 0, 0, 0, 0, 0, 0] none 0 0 [], .mk .EMPTY 0 [] none 0 0 []]

end cudf

namespace cudf

open arrow

/-! ## Basic facts -/

theorem column_view.depth_eq (v : column_view) : v.depth = depth_list v.children + 1 := by
  cases v; simp [column_view.depth, column_view.children]

theorem depth_lt_of_mem {cs : List column_view} {c : column_view} (h : c ∈ cs) :
    c.depth ≤ depth_list cs := by
  induction cs with
  | nil => cases h
  | cons x xs ih =>
    simp only [depth_list]
    rcases List.mem_cons.mp h with h | h
    · subst h; exact le_max_left _ _
    · exact le_trans (ih h) (le_max_right _ _)

theorem column_view.depth_child_lt {v c : column_view} (h : c ∈ v.children) :
    c.depth < v.depth := by
  rw [v.depth_eq]; exact Nat.lt_succ_of_le (depth_lt_of_mem h)

/-- The conversions of two dispatchers that agree on every listed child agree. -/
theorem transform_congr {f g : column_view → Except error Array}
    {cs : List column_view} (h : ∀ c ∈ cs, f c = g c) :
    transform f cs = transform g cs := by
  induction cs with
  | nil => rfl
  | cons x xs ih =>
    simp only [transform]
    rw [h x (List.mem_cons_self _ _), ih (fun c hc => h c (List.mem_cons_of_mem _ hc))]

theorem column_view.materialize_eq (type : type_id) (s : Nat) (head : List Nat)
    (null_mask : Option (List Nat)) (c o : Nat) (children : List column_view)
    (offset size null_count : Nat) :
    (column_view.mk type s head null_mask c o children).materialize offset size null_count =
    (let mask := null_mask.map fun m => cudf.copy_bitmask m offset (offset + size)
    match type.category with
    | .other => .error .unsupported_type
    | .fixed_width w =>
      .ok (.mk type size (device_read head (w * offset) (w * size)) mask null_count 0 [])
    | .string_view =>
      match children with
      | [] => .ok (.mk type size [] mask null_count 0 [])
      | [_] => .error .out_of_bounds
      | c0 :: c1 :: _ =>
        let first := read_int32 c0.head (c0.offset + offset)
        let last := read_int32 c0.head (c0.offset + offset + size)
        .ok (.mk type size [] mask null_count 0
          [c0.sliced_offsets offset size,
           .mk .INT8 (last - first) (device_read c1.head (c1.offset + first) (last - first))
             none 0 0 []])
    | .list_view =>
      match children with
      | [] => .ok (.mk type size [] mask null_count 0 [])
      | [_] => .error .out_of_bounds
      | c0 :: c1 :: _ =>
        let first := read_int32 c0.head (c0.offset + offset)
        let last := read_int32 c0.head (c0.offset + offset + size)
        match column_view.materialize c1 (c1.offset + first) (last - first)
            (c1.null_count_of_range (c1.offset + first) (c1.offset + last)) with
        | .error e => .error e
        | .ok values =>
          .ok (.mk type size [] mask null_count 0 [c0.sliced_offsets offset size, values])
    | .dictionary32 =>
      match children with
      | [] => .ok (.mk type size [] mask null_count 0 [])
      | [_] => .error .out_of_bounds
      | c0 :: c1 :: _ =>
        match column_view.materialize c0 (c0.offset + offset) size 0 with
        | .error e => .error e
        | .ok indices =>
          match column_view.materialize c1 c1.offset c1.size c1.null_count with
          | .error e => .error e
          | .ok keys => .ok (.mk type size [] mask null_count 0 [indices, keys])) := by
  cases type <;> rcases children with _ | ⟨c0, _ | ⟨c1, rest⟩⟩ <;> rfl

theorem column_view.materialize_fields {v m : column_view} {o n nc : Nat}
    (h : v.materialize o n nc = .ok m) :
    m.type = v.type ∧ m.size = n ∧ m.offset = 0 ∧ m.null_count = nc ∧
      m.null_mask = v.null_mask.map (fun k => cudf.copy_bitmask k o (o + n)) := by
  cases v with
  | mk t s hd nm c o' cs =>
    rw [column_view.materialize_eq] at h
    simp only at h
    repeat' split at h
    all_goals
      cases h <;> simp [column_view.type, column_view.size, column_view.offset,
        column_view.null_count, column_view.null_mask]

theorem column_view.depth_pos (v : column_view) : 1 ≤ v.depth := by
  rw [v.depth_eq]; omega

theorem column_view.sliced_offsets_depth (c0 : column_view) (o n : Nat) :
    (c0.sliced_offsets o n).depth = 1 := by
  simp [column_view.sliced_offsets, column_view.depth, depth_list]

theorem column_view.materialize_depth_le : ∀ (d : Nat) (v m : column_view) (o n nc : Nat),
    v.depth ≤ d → v.materialize o n nc = .ok m → m.depth ≤ v.depth := by
  intro d
  induction d with
  | zero =>
    intro v m o n nc hd
    rw [v.depth_eq] at hd; omega
  | succ d ih =>
    intro v m o n nc hd h
    cases v with
    | mk t s hd' nm c o' cs =>
      rw [column_view.materialize_eq] at h
      simp only [column_view.depth] at hd
      cases hcat : t.category with
      | other => simp [hcat] at h
      | fixed_width w =>
        simp [hcat] at h; subst h; simp [column_view.depth, depth_list]
      | string_view =>
        rcases cs with _ | ⟨c0, _ | ⟨c1, tl⟩⟩ <;> simp [hcat] at h
        · subst h; simp [column_view.depth, depth_list]
        · subst h
          have h0 := c0.depth_pos
          have h1 := c0.sliced_offsets_depth o n
          simp only [column_view.depth, depth_list] at h1 ⊢
          omega
      | list_view =>
        rcases cs with _ | ⟨c0, _ | ⟨c1, tl⟩⟩ <;> simp [hcat] at h
        · subst h; simp [column_view.depth, depth_list]
        · split at h
          · cases h
          · rename_i values hv
            cases h
            have h0 := c0.depth_pos
            have h1 := c0.sliced_offsets_depth o n
            simp only [depth_list] at hd
            have h2 := ih c1 values _ _ _ (by omega) hv
            simp only [column_view.depth, depth_list] at h1 ⊢
            omega
      | dictionary32 =>
        rcases cs with _ | ⟨c0, _ | ⟨c1, tl⟩⟩ <;> simp [hcat] at h
        · subst h; simp [column_view.depth, depth_list]
        · split at h
          · cases h
          · rename_i indices hi
            split at h
            · cases h
            · rename_i keys hk
              cases h
              simp only [depth_list] at hd
              have h2 := ih c0 indices _ _ _ (by omega) hi
              have h3 := ih c1 keys _ _ _ (by omega) hk
              simp only [column_view.depth, depth_list]
              omega

theorem column_view.materialize_depth {v m : column_view} {o n nc : Nat}
    (h : v.materialize o n nc = .ok m) : m.depth ≤ v.depth :=
  column_view.materialize_depth_le v.depth v m o n nc le_rfl h

theorem column_from_view_depth {v m : column_view} (h : column_from_view v = .ok m) :
    m.depth ≤ v.depth :=
  column_view.materialize_depth h

theorem normalize_depth {extra : Int} {v m : column_view} (h : normalize extra v = .ok m) :
    m.depth ≤ v.depth := by
  unfold normalize at h
  split at h
  · exact column_from_view_depth h
  · split at h
    · cases h
    · split at h
      · exact column_from_view_depth h
      · cases h; exact le_rfl

theorem dispatch_to_arrow.string_view_congr {f g : column_view → Except error Array}
    {v : column_view}
    (h : ∀ nv, normalize 1 v = .ok nv → ∀ c ∈ nv.children, f c = g c) :
    dispatch_to_arrow.string_view f v = dispatch_to_arrow.string_view g v := by
  unfold dispatch_to_arrow.string_view
  cases hn : normalize 1 v with
  | error e => rfl
  | ok nv => simp only [dispatch_to_arrow.fetch_child_array, transform_congr (h nv hn)]

theorem dispatch_to_arrow.list_view_congr {f g : column_view → Except error Array}
    {v : column_view}
    (h : ∀ nv, normalize 1 v = .ok nv → ∀ c ∈ nv.children, f c = g c) :
    dispatch_to_arrow.list_view f v = dispatch_to_arrow.list_view g v := by
  unfold dispatch_to_arrow.list_view
  cases hn : normalize 1 v with
  | error e => rfl
  | ok nv => simp only [dispatch_to_arrow.fetch_child_array, transform_congr (h nv hn)]

theorem dispatch_to_arrow.dictionary32_congr {f g : column_view → Except error Array}
    {v : column_view}
    (h : ∀ nv, normalize 0 v = .ok nv → ∀ c ∈ nv.children, f c = g c) :
    dispatch_to_arrow.dictionary32 f v = dispatch_to_arrow.dictionary32 g v := by
  unfold dispatch_to_arrow.dictionary32
  cases hn : normalize 0 v with
  | error e => rfl
  | ok nv => simp only [dispatch_to_arrow.fetch_child_array, transform_congr (h nv hn)]

/-- Any two recursion budgets above the nesting depth of a view give the same
conversion. -/
theorem type_dispatcher_fuel_irrelevant : ∀ (f g : Nat) (v : column_view),
    v.depth < f → v.depth < g → type_dispatcher_fuel f v = type_dispatcher_fuel g v := by
  intro f
  induction f with
  | zero => intro g v hf; omega
  | succ f ih =>
    intro g v hf hg
    cases g with
    | zero => omega
    | succ g =>
      have key : ∀ (extra : Int) nv, normalize extra v = .ok nv → ∀ c ∈ nv.children,
          type_dispatcher_fuel f c = type_dispatcher_fuel g c := by
        intro extra nv hn c hc
        have h1 := normalize_depth hn
        have h2 := column_view.depth_child_lt hc
        exact ih g c (by omega) (by omega)
      simp only [type_dispatcher_fuel]
      cases v.type.category with
      | fixed_width w => rfl
      | other => rfl
      | string_view => exact dispatch_to_arrow.string_view_congr (key 1)
      | list_view => exact dispatch_to_arrow.list_view_congr (key 1)
      | dictionary32 => exact dispatch_to_arrow.dictionary32_congr (key 0)

/-- The conversion with any budget above the nesting depth is the conversion. -/
theorem type_dispatcher_fuel_eq {f : Nat} {v : column_view} (h : v.depth < f) :
    type_dispatcher_fuel f v = type_dispatcher v :=
  type_dispatcher_fuel_irrelevant f (v.depth + 1) v h (Nat.lt_succ_self _)

/-! ## The dispatcher satisfies the recursive equations of the source -/

theorem type_dispatcher_fixed_width {v : column_view} {w : Nat}
    (h : v.type.category = .fixed_width w) :
    type_dispatcher v = dispatch_to_arrow.fixed_width w v v.type := by
  simp only [type_dispatcher, type_dispatcher_fuel, h]

theorem type_dispatcher_other {v : column_view} (h : v.type.category = .other) :
    type_dispatcher v = .error .unsupported_type := by
  simp only [type_dispatcher, type_dispatcher_fuel, h]

theorem type_dispatcher_children_eq {extra : Int} {v nv : column_view}
    (hn : normalize extra v = .ok nv) :
    ∀ c ∈ nv.children, type_dispatcher_fuel v.depth c = type_dispatcher c := by
  intro c hc
  have h1 := normalize_depth hn
  have h2 := column_view.depth_child_lt hc
  exact type_dispatcher_fuel_eq (by omega)

theorem type_dispatcher_string_view {v : column_view} (h : v.type.category = .string_view) :
    type_dispatcher v = dispatch_to_arrow.string_view type_dispatcher v := by
  simp only [type_dispatcher, type_dispatcher_fuel, h]
  exact dispatch_to_arrow.string_view_congr fun nv hn => type_dispatcher_children_eq hn

theorem type_dispatcher_list_view {v : column_view} (h : v.type.category = .list_view) :
    type_dispatcher v = dispatch_to_arrow.list_view type_dispatcher v := by
  simp only [type_dispatcher, type_dispatcher_fuel, h]
  exact dispatch_to_arrow.list_view_congr fun nv hn => type_dispatcher_children_eq hn

theorem type_dispatcher_dictionary32 {v : column_view} (h : v.type.category = .dictionary32) :
    type_dispatcher v = dispatch_to_arrow.dictionary32 type_dispatcher v := by
  simp only [type_dispatcher, type_dispatcher_fuel, h]
  exact dispatch_to_arrow.dictionary32_congr fun nv hn => type_dispatcher_children_eq hn

/-! ## Buffers -/

theorem device_read_length (p : List Nat) (a k : Nat) : (device_read p a k).length = k := by
  simp [device_read]

theorem le_RoundUpToMultipleOf64 (n : Nat) : n ≤ RoundUpToMultipleOf64 n := by
  unfold RoundUpToMultipleOf64; omega

theorem fetch_data_buffer_size (w : Nat) (v : column_view) :
    (fetch_data_buffer w v).size = w * v.size := rfl

theorem fetch_data_buffer_bytes (w : Nat) (v : column_view) :
    (fetch_data_buffer w v).bytes = device_read v.head (w * v.offset) (w * v.size) := by
  have h : (AllocateBuffer (w * v.size)).size = w * v.size := rfl
  simp [fetch_data_buffer, cudaMemcpyAsync, Buffer.bytes, List.take_append_eq_append_take,
    device_read_length, List.take_of_length_le, h]

theorem fetch_data_buffer_capacity (w : Nat) (v : column_view) :
    (fetch_data_buffer w v).capacity = RoundUpToMultipleOf64 (w * v.size) := by
  have := le_RoundUpToMultipleOf64 (w * v.size)
  simp [fetch_data_buffer, cudaMemcpyAsync, Buffer.capacity, AllocateBuffer, device_read_length]
  omega

theorem fetch_mask_buffer_no_nulls {v : column_view} (h : v.null_count = 0) :
    fetch_mask_buffer v = .ok none := by
  simp [fetch_mask_buffer, column_view.has_nulls, h]

/-! ## Converting a sequence of columns -/

theorem transform_ok_cons {f : column_view → Except error Array}
    {c : column_view} {cs : List column_view} {arrays : List Array}
    (h : transform f (c :: cs) = .ok arrays) :
    ∃ a rest, arrays = a :: rest ∧ f c = .ok a ∧
      transform f cs = .ok rest := by
  simp only [transform] at h
  cases hc : f c with
  | error e => simp [hc] at h
  | ok a =>
    cases hr : transform f cs with
    | error e => simp [hc, hr] at h
    | ok rest =>
      simp [hc, hr] at h
      exact ⟨a, rest, h.symm, rfl, rfl⟩

theorem transform_ok_mem {f : column_view → Except error Array}
    {cs : List column_view} {arrays : List Array}
    (h : transform f cs = .ok arrays) :
    ∀ c ∈ cs, ∃ a, f c = .ok a := by
  induction cs generalizing arrays with
  | nil => intro c hc; cases hc
  | cons x xs ih =>
    obtain ⟨a, rest, _, hx, hr⟩ := transform_ok_cons h
    intro c hc
    rcases List.mem_cons.mp hc with rfl | hc
    · exact ⟨a, hx⟩
    · exact ih hr c hc

theorem transform_total {f : column_view → Except error Array}
    {cs : List column_view} (h : ∀ c ∈ cs, ∃ a, f c = .ok a) :
    ∃ arrays, transform f cs = .ok arrays := by
  induction cs with
  | nil => exact ⟨[], rfl⟩
  | cons x xs ih =>
    obtain ⟨a, ha⟩ := h x (List.mem_cons_self _ _)
    obtain ⟨rest, hr⟩ := ih fun c hc => h c (List.mem_cons_of_mem _ hc)
    exact ⟨a :: rest, by simp [transform, ha, hr]⟩

theorem transform_length {f : column_view → Except error Array}
    {cs : List column_view} {arrays : List Array}
    (h : transform f cs = .ok arrays) :
    arrays.length = cs.length := by
  induction cs generalizing arrays with
  | nil => simp [transform] at h; simp [← h]
  | cons x xs ih =>
    obtain ⟨a, rest, rfl, _, hr⟩ := transform_ok_cons h
    simp [ih hr]

theorem transform_get {f : column_view → Except error Array}
    {cs : List column_view} {arrays : List Array}
    (h : transform f cs = .ok arrays) :
    ∀ i c, cs.get? i = some c → ∃ a, arrays.get? i = some a ∧ f c = .ok a := by
  induction cs generalizing arrays with
  | nil => intro i c hc; simp at hc
  | cons x xs ih =>
    obtain ⟨a, rest, rfl, hx, hr⟩ := transform_ok_cons h
    intro i c hc
    cases i with
    | zero =>
      simp at hc; subst hc
      exact ⟨a, by simp, hx⟩
    | succ i =>
      simp at hc
      obtain ⟨b, hb, hfb⟩ := ih hr i c (by simpa using hc)
      exact ⟨b, by simpa using hb, hfb⟩

/-! ## Columns of unsupported type -/

theorem normalize_cases {extra : Int} {v nv : column_view} (h : normalize extra v = .ok nv) :
    nv = v ∨ column_from_view v = .ok nv := by
  unfold normalize at h
  split at h
  · exact Or.inr h
  · split at h
    · cases h
    · split at h
      · exact Or.inr h
      · cases h; exact Or.inl rfl

theorem contains_unsupported.materialize_fails {v : column_view} (h : contains_unsupported v) :
    ∀ o n nc m, v.materialize o n nc ≠ .ok m := by
  induction h with
  | here v hv =>
    intro o n nc m
    cases v with
    | mk t s hd nm c o' cs =>
      simp only [column_view.type] at hv
      simp [column_view.materialize_eq, hv]
  | list_values v c0 c1 rest hv hcs _ ih =>
    intro o n nc m
    cases v with
    | mk t s hd nm c o' cs =>
      simp only [column_view.type] at hv
      simp only [column_view.children] at hcs
      subst hcs
      simp only [column_view.materialize_eq, hv]
      split
      · simp
      · rename_i values hval
        exact absurd hval (ih _ _ _ _)
  | dictionary_indices v c0 c1 rest hv hcs _ ih =>
    intro o n nc m
    cases v with
    | mk t s hd nm c o' cs =>
      simp only [column_view.type] at hv
      simp only [column_view.children] at hcs
      subst hcs
      simp only [column_view.materialize_eq, hv]
      split
      · simp
      · rename_i indices hind
        exact absurd hind (ih _ _ _ _)
  | dictionary_keys v c0 c1 rest hv hcs _ ih =>
    intro o n nc m
    cases v with
    | mk t s hd nm c o' cs =>
      simp only [column_view.type] at hv
      simp only [column_view.children] at hcs
      subst hcs
      simp only [column_view.materialize_eq, hv]
      split
      · simp
      · split
        · simp
        · rename_i keys hkeys
          exact absurd hkeys (ih _ _ _ _)

theorem transform_fails {f : column_view → Except error Array}
    {cs : List column_view} {c : column_view} (hc : c ∈ cs) (hf : ∀ a, f c ≠ .ok a) :
    ∀ arrays, transform f cs ≠ .ok arrays := by
  intro arrays h
  obtain ⟨a, ha⟩ := transform_ok_mem h c hc
  exact hf a ha

theorem contains_unsupported.normalized_child {extra : Int} {v nv c : column_view}
    (hc : c ∈ v.children) (hcu : contains_unsupported v)
    (hn : normalize extra v = .ok nv) : c ∈ nv.children := by
  rcases normalize_cases hn with rfl | hm
  · exact hc
  · exact absurd hm (hcu.materialize_fails _ _ _ _)

theorem contains_unsupported.fuel_fails {v : column_view} (h : contains_unsupported v) :
    ∀ fuel a, type_dispatcher_fuel fuel v ≠ .ok a := by
  induction h with
  | here v hv =>
    intro fuel a
    cases fuel <;> simp [type_dispatcher_fuel, hv]
  | list_values v c0 c1 rest hv hcs hc1 ih =>
    intro fuel a
    cases fuel with
    | zero => simp [type_dispatcher_fuel]
    | succ fuel =>
      simp only [type_dispatcher_fuel, hv, dispatch_to_arrow.list_view]
      cases hn : normalize 1 v with
      | error e => simp
      | ok nv =>
        have hmem : c1 ∈ nv.children :=
          contains_unsupported.normalized_child (by simp [hcs])
            (contains_unsupported.list_values v c0 c1 rest hv hcs hc1) hn
        cases hf : transform (type_dispatcher_fuel fuel) nv.children with
        | error e => simp [dispatch_to_arrow.fetch_child_array, hf]
        | ok arrays => exact absurd hf (transform_fails hmem (ih fuel) _)
  | dictionary_indices v c0 c1 rest hv hcs hc0 ih =>
    intro fuel a
    cases fuel with
    | zero => simp [type_dispatcher_fuel]
    | succ fuel =>
      simp only [type_dispatcher_fuel, hv, dispatch_to_arrow.dictionary32]
      cases hn : normalize 0 v with
      | error e => simp
      | ok nv =>
        have hmem : c0 ∈ nv.children :=
          contains_unsupported.normalized_child (by simp [hcs])
            (contains_unsupported.dictionary_indices v c0 c1 rest hv hcs hc0) hn
        cases hf : transform (type_dispatcher_fuel fuel) nv.children with
        | error e => simp [dispatch_to_arrow.fetch_child_array, hf]
        | ok arrays => exact absurd hf (transform_fails hmem (ih fuel) _)
  | dictionary_keys v c0 c1 rest hv hcs hc1 ih =>
    intro fuel a
    cases fuel with
    | zero => simp [type_dispatcher_fuel]
    | succ fuel =>
      simp only [type_dispatcher_fuel, hv, dispatch_to_arrow.dictionary32]
      cases hn : normalize 0 v with
      | error e => simp
      | ok nv =>
        have hmem : c1 ∈ nv.children :=
          contains_unsupported.normalized_child (by simp [hcs])
            (contains_unsupported.dictionary_keys v c0 c1 rest hv hcs hc1) hn
        cases hf : transform (type_dispatcher_fuel fuel) nv.children with
        | error e => simp [dispatch_to_arrow.fetch_child_array, hf]
        | ok arrays => exact absurd hf (transform_fails hmem (ih fuel) _)

/-! ## Normalized views and the compound converters -/

theorem type_dispatcher_leaf {c : column_view} {w : Nat}
    (hw : c.type.category = .fixed_width w) (hn : c.null_count = 0) :
    type_dispatcher c = .ok (.primitive c.type c.size (some (fetch_data_buffer w c)) none 0) := by
  rw [type_dispatcher_fixed_width hw]
  simp [dispatch_to_arrow.fixed_width, fetch_mask_buffer_no_nulls hn, to_arrow_array, hn]

theorem fetch_mask_buffer_column_from_view {v m : column_view} (ho : v.offset ≠ 0)
    (h : column_from_view v = .ok m) : fetch_mask_buffer m = fetch_mask_buffer v := by
  obtain ⟨_, hsize, hoff, hnc, hmask⟩ := column_view.materialize_fields h
  have hpos : 0 < v.offset := Nat.pos_of_ne_zero ho
  simp [fetch_mask_buffer, column_view.has_nulls, hsize, hoff, hnc, hmask, hpos,
    column_view.copy_bitmask]

theorem dispatch_to_arrow.string_view_of_normalized {f : column_view → Except error Array}
    {v nv n0 n1 : column_view} {a0 a1 : Array}
    (hn : normalize 1 v = .ok nv) (hc : nv.children = [n0, n1])
    (h0 : f n0 = .ok a0) (h1 : f n1 = .ok a1) :
    dispatch_to_arrow.string_view f v =
      (fetch_mask_buffer nv).map fun validity =>
        .string nv.size a0.buffers1 a1.buffers1 validity nv.null_count := by
  simp only [dispatch_to_arrow.string_view, dispatch_to_arrow.fetch_child_array, hn, hc, transform, h0, h1]
  cases fetch_mask_buffer nv <;> simp [vector_at, Except.map]

theorem dispatch_to_arrow.list_view_of_normalized {f : column_view → Except error Array}
    {v nv n0 n1 : column_view} {a0 a1 : Array}
    (hn : normalize 1 v = .ok nv) (hc : nv.children = [n0, n1])
    (h0 : f n0 = .ok a0) (h1 : f n1 = .ok a1) :
    dispatch_to_arrow.list_view f v =
      (fetch_mask_buffer nv).map fun validity =>
        .list (.list a1.type) nv.size a0.buffers1 a1 validity nv.null_count := by
  simp only [dispatch_to_arrow.list_view, dispatch_to_arrow.fetch_child_array, hn, hc, transform, h0, h1]
  cases fetch_mask_buffer nv <;> simp [vector_at, Except.map]

theorem dispatch_to_arrow.dictionary32_of_normalized {f : column_view → Except error Array}
    {v nv n0 n1 : column_view} {a0 a1 : Array}
    (hn : normalize 0 v = .ok nv) (hc : nv.children = [n0, n1])
    (h0 : f n0 = .ok a0) (h1 : f n1 = .ok a1) :
    dispatch_to_arrow.dictionary32 f v =
      (fetch_mask_buffer nv).map fun validity =>
        .dictionary (.dictionary (.primitive .INT32) a1.type)
          (.primitive .INT32 nv.size a0.buffers1 validity nv.null_count) a1 := by
  simp only [dispatch_to_arrow.dictionary32, dispatch_to_arrow.fetch_child_array, hn, hc, transform, h0, h1]
  cases fetch_mask_buffer nv <;> simp [vector_at, Except.map, to_arrow_array, Array.type]

/-- The view a compound converter works on keeps the size, the null count and
the validity buffer of its input. -/
theorem normalize_keeps {extra : Int} {v nv : column_view} (hn : normalize extra v = .ok nv) :
    nv.type = v.type ∧ nv.size = v.size ∧ nv.null_count = v.null_count ∧ nv.offset = 0 := by
  unfold normalize at hn
  split at hn
  · obtain ⟨h1, h2, h3, h4, _⟩ := column_view.materialize_fields hn
    exact ⟨h1, h2, h4, h3⟩
  · rename_i ho
    simp only [ne_eq, not_not] at ho
    split at hn
    · cases hn
    · split at hn
      · obtain ⟨h1, h2, h3, h4, _⟩ := column_view.materialize_fields hn
        exact ⟨h1, h2, h4, h3⟩
      · cases hn; exact ⟨rfl, rfl, rfl, ho⟩

/-- A view with offset zero whose first child has the size the layout asks for
is used as it is. -/
theorem normalize_consistent {extra : Int} {v c0 : column_view} {rest : List column_view}
    (ho : v.offset = 0) (hc : v.children = c0 :: rest)
    (hs : (c0.size : Int) - extra = (v.size : Int)) : normalize extra v = .ok v := by
  simp [normalize, ho, column_view.child, hc, hs]

theorem normalize_offset {extra : Int} {v : column_view} (ho : v.offset ≠ 0) :
    normalize extra v = column_from_view v := by
  simp [normalize, ho]

theorem column_from_view_string {v c0 c1 : column_view} {rest : List column_view}
    (hs : v.type.category = .string_view) (hc : v.children = c0 :: c1 :: rest) :
    ∃ m n1, column_from_view v = .ok m ∧
      m.children = [c0.sliced_offsets v.offset v.size, n1] ∧
      n1.type = .INT8 ∧ n1.null_count = 0 := by
  cases v with
  | mk t s hd nm c o cs =>
    simp only [column_view.type] at hs
    simp only [column_view.children] at hc
    subst hc
    simp [column_from_view, column_view.materialize_eq, hs, column_view.children,
      column_view.type, column_view.null_count]

theorem column_from_view_list {v m c0 c1 : column_view} {rest : List column_view}
    (hs : v.type.category = .list_view) (hc : v.children = c0 :: c1 :: rest)
    (hm : column_from_view v = .ok m) :
    ∃ values, m.children = [c0.sliced_offsets v.offset v.size, values] := by
  cases v with
  | mk t s hd nm c o cs =>
    simp only [column_view.type] at hs
    simp only [column_view.children] at hc
    subst hc
    simp only [column_from_view, column_view.materialize_eq, hs] at hm
    split at hm
    · cases hm
    · cases hm; exact ⟨_, rfl⟩

theorem column_from_view_dictionary {v m c0 c1 : column_view} {rest : List column_view}
    (hs : v.type.category = .dictionary32) (hc : v.children = c0 :: c1 :: rest)
    (hm : column_from_view v = .ok m) :
    ∃ indices keys, m.children = [indices, keys] ∧
      c0.materialize (c0.offset + v.offset) v.size 0 = .ok indices := by
  cases v with
  | mk t s hd nm c o cs =>
    simp only [column_view.type] at hs
    simp only [column_view.children] at hc
    subst hc
    simp only [column_from_view, column_view.materialize_eq, hs] at hm
    split at hm
    · cases hm
    · rename_i indices hi
      split at hm
      · cases hm
      · cases hm; exact ⟨_, _, rfl, hi⟩

/-! ## Materialized copies -/

theorem device_read_device_read (p : List Nat) (a k : Nat) :
    device_read (device_read p a k) 0 k = device_read p a k := by
  unfold device_read
  apply List.map_congr_left
  intro i hi
  have hik : i < k := List.mem_range.mp hi
  simp [device_byte, List.getD_eq_getElem?_getD, List.getElem?_map, List.getElem?_range hik]

theorem fetch_data_buffer_congr {w : Nat} {v m : column_view}
    (hs : m.size = v.size)
    (hd : device_read m.head (w * m.offset) (w * v.size)
      = device_read v.head (w * v.offset) (w * v.size)) :
    fetch_data_buffer w m = fetch_data_buffer w v := by
  simp only [fetch_data_buffer, cudaMemcpyAsync, hs, hd]

theorem column_from_view_fixed_width {v m : column_view} {w : Nat}
    (hw : v.type.category = .fixed_width w) (hm : column_from_view v = .ok m) :
    fetch_data_buffer w m = fetch_data_buffer w v := by
  cases v with
  | mk t s hd nm c o cs =>
    simp only [column_view.type] at hw
    simp only [column_from_view, column_view.materialize_eq, hw, column_view.offset,
      column_view.size, column_view.null_count] at hm
    cases hm
    refine fetch_data_buffer_congr rfl ?_
    simp only [column_view.head, column_view.offset, column_view.size, Nat.mul_zero]
    exact device_read_device_read _ _ _

theorem column_view.sliced_offsets_size (c0 : column_view) (o n : Nat) :
    (c0.sliced_offsets o n).size = n + 1 := rfl

theorem dispatch_to_arrow.string_view_of_normalize_eq {f : column_view → Except error Array}
    {v m : column_view} (h : normalize 1 v = normalize 1 m) :
    dispatch_to_arrow.string_view f v = dispatch_to_arrow.string_view f m := by
  simp only [dispatch_to_arrow.string_view, h]

theorem dispatch_to_arrow.list_view_of_normalize_eq {f : column_view → Except error Array}
    {v m : column_view} (h : normalize 1 v = normalize 1 m) :
    dispatch_to_arrow.list_view f v = dispatch_to_arrow.list_view f m := by
  simp only [dispatch_to_arrow.list_view, h]

theorem dispatch_to_arrow.dictionary32_of_normalize_eq {f : column_view → Except error Array}
    {v m : column_view} (h : normalize 0 v = normalize 0 m) :
    dispatch_to_arrow.dictionary32 f v = dispatch_to_arrow.dictionary32 f m := by
  simp only [dispatch_to_arrow.dictionary32, h]

/-- A compound view without children is copied to a view without children. -/
theorem column_from_view_no_children {v m : column_view} (hc : v.children = [])
    (hm : column_from_view v = .ok m) : m.children = [] := by
  cases v with
  | mk t s hd nm c o cs =>
    simp only [column_view.children] at hc
    subst hc
    simp only [column_from_view, column_view.materialize_eq] at hm
    split at hm <;> cases hm <;> rfl

/-- A compound view with exactly one child cannot be copied. -/
theorem column_from_view_one_child {v m c0 : column_view} (hc : v.children = [c0])
    (hcat : ∀ w, v.type.category ≠ .fixed_width w) : column_from_view v ≠ .ok m := by
  cases v with
  | mk t s hd nm c o cs =>
    simp only [column_view.children] at hc
    subst hc
    simp only [column_view.type] at hcat
    simp only [column_from_view, column_view.materialize_eq]
    split <;> simp_all

/-! ## Validity bitmaps -/

theorem pack_byte_bit (bits : Nat → Bool) (j b : Nat) (hb : b < 8) :
    (pack_byte bits j / 2 ^ b % 2 == 1) = bits (8 * j + b) := by
  have hsum : pack_byte bits j =
      (if bits (8 * j + 0) then 1 else 0) + (if bits (8 * j + 1) then 2 else 0)
      + (if bits (8 * j + 2) then 4 else 0) + (if bits (8 * j + 3) then 8 else 0)
      + (if bits (8 * j + 4) then 16 else 0) + (if bits (8 * j + 5) then 32 else 0)
      + (if bits (8 * j + 6) then 64 else 0) + (if bits (8 * j + 7) then 128 else 0) := by
    simp [pack_byte, List.range, List.range.loop]
    ring
  rw [hsum]
  interval_cases b <;>
    cases bits (8 * j + 0) <;> cases bits (8 * j + 1) <;> cases bits (8 * j + 2) <;>
    cases bits (8 * j + 3) <;> cases bits (8 * j + 4) <;> cases bits (8 * j + 5) <;>
    cases bits (8 * j + 6) <;> cases bits (8 * j + 7) <;> rfl

theorem device_byte_map_range (f : Nat → Nat) {n j : Nat} (h : j < n) :
    device_byte ((List.range n).map f) j = f j := by
  simp [device_byte, List.getD_eq_getElem?_getD, List.getElem?_map, List.getElem?_range h]

/-- Bit `i` of a copied bitmask is bit `begin_bit + i` of the source. -/
theorem bit_is_set_copy_bitmask (mask : List Nat) (b e i : Nat)
    (hi : i < 8 * bitmask_allocation_size_bytes (e - b)) :
    bit_is_set (copy_bitmask mask b e) i = bit_is_set mask (b + i) := by
  have h8 : i / 8 < bitmask_allocation_size_bytes (e - b) := by omega
  unfold bit_is_set copy_bitmask
  rw [device_byte_map_range _ h8, pack_byte_bit _ _ _ (Nat.mod_lt _ (by norm_num))]
  simp only [bit_is_set]
  rw [Nat.div_add_mod]

theorem le_bitmask_allocation_size_bytes (n : Nat) :
    BytesForBits n ≤ bitmask_allocation_size_bytes n := by
  unfold BytesForBits bitmask_allocation_size_bytes; omega

theorem bitmask_allocation_size_bytes_eq (n : Nat) :
    bitmask_allocation_size_bytes n = RoundUpToMultipleOf64 (BytesForBits n) := rfl

/-- The buffer `fetch_mask_buffer` fills from a device bitmask `p`: its logical
bytes are the first bytes of `p`, its padding is zero. -/
theorem mask_buffer_byte (p : List Nat) (n j : Nat) :
    ((cudaMemcpyAsync (AllocateBitmap n) p 0 (bitmask_allocation_size_bytes n)).ZeroPadding).data.getD j 0
      = if j < BytesForBits n then device_byte p j else 0 := by
  have hle := le_bitmask_allocation_size_bytes n
  simp only [Buffer.ZeroPadding, cudaMemcpyAsync, AllocateBitmap, AllocateBuffer]
  by_cases hj : j < BytesForBits n
  · have hlen : j < (List.take (BytesForBits n)
        (device_read p 0 (bitmask_allocation_size_bytes n) ++
          List.drop (bitmask_allocation_size_bytes n)
            (List.replicate (RoundUpToMultipleOf64 (BytesForBits n)) 0))).length := by
      simp [device_read]; omega
    rw [List.getD_eq_getElem?_getD, List.getElem?_append_left hlen, List.getElem?_take_of_lt hj,
      List.getElem?_append_left (by simp [device_read]; omega)]
    simp [hj, device_read, List.getElem?_range (lt_of_lt_of_le hj hle)]
  · simp only [hj, if_false]
    rw [List.getD_eq_getElem?_getD, List.getElem?_append_right (by simp [device_read]; omega)]
    simp only [List.getElem?_replicate]
    split <;> rfl

/-- What `fetch_mask_buffer` returns for a view with nulls and a mask: a bitmap
of `BytesForBits(size)` bytes in an allocation rounded up to 64 bytes, whose
bit `i` is the validity of row `i` for every row of the view, whose bytes
after the bitmap are zero, and whose bits in the last byte of the bitmap are
the bits of the source mask, also those after the last row. -/
theorem fetch_mask_buffer_contract (v : column_view) (mask : List Nat)
    (hn : 0 < v.null_count) (hm : v.null_mask = some mask) :
    ∃ b : Buffer, fetch_mask_buffer v = .ok (some b) ∧
      b.size = BytesForBits v.size ∧
      (∀ i, i < v.size → b.bit i = v.is_valid i) ∧
      (∀ j, BytesForBits v.size ≤ j → b.data.getD j 0 = 0) ∧
      (∀ i, i < 8 * BytesForBits v.size → b.bit i = bit_is_set mask (v.offset + i)) := by
  have hbits : ∀ (p : List Nat) (i : Nat), i < 8 * BytesForBits v.size →
      ((cudaMemcpyAsync (AllocateBitmap v.size) p 0
        (bitmask_allocation_size_bytes v.size)).ZeroPadding).bit i = bit_is_set p i := by
    intro p i hi
    have h8 : i / 8 < BytesForBits v.size := by omega
    simp only [Buffer.bit, mask_buffer_byte, h8, if_true, bit_is_set]
  have hpad : ∀ (p : List Nat) (j : Nat), BytesForBits v.size ≤ j →
      ((cudaMemcpyAsync (AllocateBitmap v.size) p 0
        (bitmask_allocation_size_bytes v.size)).ZeroPadding).data.getD j 0 = 0 := by
    intro p j hj
    rw [mask_buffer_byte, if_neg (by omega)]
  have hrows : ∀ i, i < v.size → i < 8 * BytesForBits v.size := by
    intro i hi; unfold BytesForBits; omega
  have hvalid : ∀ i, v.is_valid i = bit_is_set mask (v.offset + i) := by
    intro i; simp [column_view.is_valid, hm]
  by_cases ho : 0 < v.offset
  · refine ⟨_, by simp [fetch_mask_buffer, column_view.has_nulls, hn, ho,
      column_view.copy_bitmask, hm]; rfl, rfl, ?_, hpad _, ?_⟩
    · intro i hi
      rw [hbits _ _ (hrows i hi), hvalid, bit_is_set_copy_bitmask]
      have := le_bitmask_allocation_size_bytes v.size
      have := hrows i hi
      simp only [Nat.add_sub_cancel_left]; omega
    · intro i hi
      rw [hbits _ _ hi, bit_is_set_copy_bitmask]
      have := le_bitmask_allocation_size_bytes v.size
      simp only [Nat.add_sub_cancel_left]; omega
  · have ho0 : v.offset = 0 := by omega
    refine ⟨_, by simp [fetch_mask_buffer, column_view.has_nulls, hn, ho0, hm]; rfl, rfl,
      ?_, hpad _, ?_⟩
    · intro i hi
      rw [hbits _ _ (hrows i hi), hvalid, ho0, Nat.zero_add]
    · intro i hi
      rw [hbits _ _ hi, ho0, Nat.zero_add]

/-! ## The recursion budget is never exhausted -/

theorem column_view.materialize_ne_out_of_fuel : ∀ (d : Nat) (v : column_view) (o n nc : Nat),
    v.depth ≤ d → v.materialize o n nc ≠ .error .out_of_fuel := by
  intro d
  induction d with
  | zero =>
    intro v o n nc hd
    rw [v.depth_eq] at hd; omega
  | succ d ih =>
    intro v o n nc hd
    cases v with
    | mk t s hd' nm c o' cs =>
      simp only [column_view.depth] at hd
      rw [column_view.materialize_eq]
      cases hcat : t.category with
      | other => simp
      | fixed_width w => simp
      | string_view => rcases cs with _ | ⟨c0, _ | ⟨c1, tl⟩⟩ <;> simp
      | list_view =>
        rcases cs with _ | ⟨c0, _ | ⟨c1, tl⟩⟩ <;> simp
        simp only [depth_list] at hd
        split
        · rename_i e he
          intro h; cases h
          exact ih c1 _ _ _ (by omega) he
        · simp
      | dictionary32 =>
        rcases cs with _ | ⟨c0, _ | ⟨c1, tl⟩⟩ <;> simp
        simp only [depth_list] at hd
        split
        · rename_i e he
          intro h; cases h
          exact ih c0 _ _ _ (by omega) he
        · split
          · rename_i e he
            intro h; cases h
            exact ih c1 _ _ _ (by omega) he
          · simp

theorem normalize_ne_out_of_fuel (extra : Int) (v : column_view) :
    normalize extra v ≠ .error .out_of_fuel := by
  have hm : column_from_view v ≠ .error .out_of_fuel :=
    column_view.materialize_ne_out_of_fuel v.depth v _ _ _ le_rfl
  unfold normalize column_view.child
  split
  · exact hm
  · split
    · rename_i e he
      split at he <;> cases he
      simp
    · split
      · exact hm
      · simp

theorem fetch_mask_buffer_ne_out_of_fuel (v : column_view) :
    fetch_mask_buffer v ≠ .error .out_of_fuel := by
  unfold fetch_mask_buffer
  simp only
  split
  · split
    · simp
    · split <;> simp
  · simp

theorem vector_at_ne_out_of_fuel (l : List Array) (i : Nat) :
    vector_at l i ≠ .error .out_of_fuel := by
  unfold vector_at; split <;> simp

theorem transform_error {f : column_view → Except error Array}
    {cs : List column_view} {e : error}
    (h : transform f cs = .error e) : ∃ c ∈ cs, f c = .error e := by
  induction cs with
  | nil => simp [transform] at h
  | cons x xs ih =>
    simp only [transform] at h
    cases hx : f x with
    | error e2 =>
      simp [hx] at h; subst h
      exact ⟨x, List.mem_cons_self _ _, hx⟩
    | ok a =>
      cases hr : transform f xs with
      | error e2 =>
        simp [hx, hr] at h; subst h
        obtain ⟨c, hc, hfc⟩ := ih hr
        exact ⟨c, List.mem_cons_of_mem _ hc, hfc⟩
      | ok rest => simp [hx, hr] at h

/-- With a budget above the nesting depth the conversion never ends for lack
of budget: every failure of `type_dispatcher` is a failure of the source. -/
theorem type_dispatcher_fuel_ne_out_of_fuel : ∀ (f : Nat) (v : column_view),
    v.depth < f → type_dispatcher_fuel f v ≠ .error .out_of_fuel := by
  intro f
  induction f with
  | zero => intro v hf; omega
  | succ f ih =>
    intro v hf
    have hchildren : ∀ (extra : Int) nv, normalize extra v = .ok nv →
        transform (type_dispatcher_fuel f) nv.children
          ≠ .error .out_of_fuel := by
      intro extra nv hn h
      obtain ⟨c, hc, hfc⟩ := transform_error h
      have h1 := normalize_depth hn
      have h2 := column_view.depth_child_lt hc
      exact ih c (by omega) hfc
    simp only [type_dispatcher_fuel]
    cases hcat : v.type.category with
    | other => simp
    | fixed_width w =>
      simp only [dispatch_to_arrow.fixed_width]
      have := fetch_mask_buffer_ne_out_of_fuel v
      split <;> simp_all
    | string_view =>
      simp only [dispatch_to_arrow.string_view, dispatch_to_arrow.fetch_child_array]
      have h1 := normalize_ne_out_of_fuel 1 v
      split
      · simp_all
      · rename_i nv hn
        have h2 := hchildren 1 nv hn
        have h3 := fetch_mask_buffer_ne_out_of_fuel nv
        split
        · simp_all
        · rename_i arrays _
          have h4 := vector_at_ne_out_of_fuel arrays 0
          have h5 := vector_at_ne_out_of_fuel arrays 1
          repeat' split
          all_goals simp_all
    | list_view =>
      simp only [dispatch_to_arrow.list_view, dispatch_to_arrow.fetch_child_array]
      have h1 := normalize_ne_out_of_fuel 1 v
      split
      · simp_all
      · rename_i nv hn
        have h2 := hchildren 1 nv hn
        have h3 := fetch_mask_buffer_ne_out_of_fuel nv
        split
        · simp_all
        · rename_i arrays _
          have h4 := vector_at_ne_out_of_fuel arrays 0
          have h5 := vector_at_ne_out_of_fuel arrays 1
          repeat' split
          all_goals simp_all
    | dictionary32 =>
      simp only [dispatch_to_arrow.dictionary32, dispatch_to_arrow.fetch_child_array]
      have h1 := normalize_ne_out_of_fuel 0 v
      split
      · simp_all
      · rename_i nv hn
        have h2 := hchildren 0 nv hn
        have h3 := fetch_mask_buffer_ne_out_of_fuel nv
        split
        · simp_all
        · rename_i arrays _
          have h4 := vector_at_ne_out_of_fuel arrays 0
          have h5 := vector_at_ne_out_of_fuel arrays 1
          repeat' split
          all_goals simp_all

/-- The dispatcher never fails for lack of recursion budget. -/
theorem type_dispatcher_ne_out_of_fuel (v : column_view) :
    type_dispatcher v ≠ .error .out_of_fuel :=
  type_dispatcher_fuel_ne_out_of_fuel _ v (Nat.lt_succ_self _)

/-! ## Well-formed views are converted -/

theorem column_view.well_formed_eq (type : type_id) (s : Nat) (head : List Nat)
    (null_mask : Option (List Nat)) (null_count o : Nat) (children : List column_view) :
    (column_view.mk type s head null_mask null_count o children).well_formed =
    ((null_count == 0 || null_mask.isSome) &&
    match type.category with
    | .other => false
    | .fixed_width _ => true
    | .string_view =>
      match children with
      | [c0, c1] => c0.is_plain .INT32 && c1.is_plain .INT8
      | _ => false
    | .list_view =>
      match children with
      | [c0, c1] => c0.is_plain .INT32 && column_view.well_formed c1
      | _ => false
    | .dictionary32 =>
      match children with
      | [c0, c1] => c0.is_plain .INT32 && column_view.well_formed c1
      | _ => false) := by
  cases type <;> rcases children with _ | ⟨c0, _ | ⟨c1, _ | ⟨c2, rest⟩⟩⟩ <;> rfl


theorem column_view.is_plain_iff {c : column_view} {id : type_id} :
    c.is_plain id = true ↔ c.type = id ∧ c.null_count = 0 := by
  simp [column_view.is_plain]

/-- A well-formed view is copied, and the copy is well formed. -/
theorem column_view.materialize_total : ∀ (d : Nat) (v : column_view) (o n nc : Nat),
    v.depth ≤ d → v.well_formed = true → (nc = 0 ∨ v.null_mask.isSome = true) →
    ∃ m, v.materialize o n nc = .ok m ∧ m.well_formed = true := by
  intro d
  induction d with
  | zero =>
    intro v o n nc hd
    rw [v.depth_eq] at hd; omega
  | succ d ih =>
    intro v o n nc hd hwf hmask
    cases v with
    | mk t s hd' nm c o' cs =>
      simp only [column_view.depth] at hd
      simp only [column_view.null_mask] at hmask
      rw [column_view.well_formed_eq] at hwf
      rw [column_view.materialize_eq]
      cases hcat : t.category with
      | other => simp [hcat] at hwf
      | fixed_width w =>
        refine ⟨_, rfl, ?_⟩
        rw [column_view.well_formed_eq]
        simp [hcat, hmask]
      | string_view =>
        rcases cs with _ | ⟨c0, _ | ⟨c1, _ | ⟨c2, rest⟩⟩⟩ <;> simp [hcat] at hwf
        refine ⟨_, rfl, ?_⟩
        rw [column_view.well_formed_eq]
        simp [hcat, hmask, column_view.is_plain, column_view.sliced_offsets, column_view.type,
          column_view.null_count]
      | list_view =>
        rcases cs with _ | ⟨c0, _ | ⟨c1, _ | ⟨c2, rest⟩⟩⟩ <;> simp [hcat] at hwf
        simp only [depth_list] at hd
        obtain ⟨values, hv, hvwf⟩ := ih c1 (c1.offset + read_int32 c0.head (c0.offset + o))
          (read_int32 c0.head (c0.offset + o + n) - read_int32 c0.head (c0.offset + o))
          (c1.null_count_of_range (c1.offset + read_int32 c0.head (c0.offset + o))
            (c1.offset + read_int32 c0.head (c0.offset + o + n)))
          (by omega) hwf.2.2 (by
            unfold column_view.null_count_of_range
            cases c1.null_mask <;> simp)
        refine ⟨_, by simp only [hv]; rfl, ?_⟩
        rw [column_view.well_formed_eq]
        simp [hcat, hmask, column_view.is_plain, column_view.sliced_offsets, column_view.type,
          column_view.null_count, hvwf]
      | dictionary32 =>
        rcases cs with _ | ⟨c0, _ | ⟨c1, _ | ⟨c2, rest⟩⟩⟩ <;> simp [hcat] at hwf
        simp only [depth_list] at hd
        obtain ⟨ht0, hn0⟩ := column_view.is_plain_iff.mp hwf.2.1
        have hc1mask : c1.null_count = 0 ∨ c1.null_mask.isSome = true := by
          have h := hwf.2.2
          cases c1 with
          | mk t1 s1 h1 m1 n1 o1 cs1 =>
            rw [column_view.well_formed_eq] at h
            simp only [Bool.and_eq_true, Bool.or_eq_true, beq_iff_eq] at h
            exact h.1
        obtain ⟨keys, hk, hkwf⟩ := ih c1 c1.offset c1.size c1.null_count (by omega) hwf.2.2 hc1mask
        have hind : ∃ indices, c0.materialize (c0.offset + o) n 0 = .ok indices ∧
            indices.is_plain .INT32 = true := by
          cases c0 with
          | mk t0 s0 h0 m0 n0 o0 cs0 =>
            simp only [column_view.type] at ht0
            subst ht0
            rw [column_view.materialize_eq]
            exact ⟨_, rfl, by simp [column_view.is_plain, column_view.type,
              column_view.null_count]⟩
        obtain ⟨indices, hi, hip⟩ := hind
        refine ⟨_, by simp only [hi, hk]; rfl, ?_⟩
        rw [column_view.well_formed_eq]
        simp [hcat, hmask, hip, hkwf]

theorem column_view.well_formed_mask {v : column_view} (h : v.well_formed = true) :
    v.null_count = 0 ∨ v.null_mask.isSome = true := by
  cases v with
  | mk t s hd nm c o cs =>
    rw [column_view.well_formed_eq] at h
    simp only [Bool.and_eq_true, Bool.or_eq_true, beq_iff_eq] at h
    exact h.1

theorem column_view.is_plain_well_formed {c : column_view} {id : type_id} {w : Nat}
    (h : c.is_plain id = true) (hid : id.category = .fixed_width w) : c.well_formed = true := by
  obtain ⟨ht, hn⟩ := column_view.is_plain_iff.mp h
  cases c with
  | mk t s hd nm n o cs =>
    simp only [column_view.type] at ht
    simp only [column_view.null_count] at hn
    rw [column_view.well_formed_eq]
    simp [ht, hid, hn]

/-- A well-formed compound view has its two children, both well formed. -/
theorem column_view.well_formed_children {v : column_view} (h : v.well_formed = true)
    (hcat : ∀ w, v.type.category ≠ .fixed_width w) :
    ∃ c0 c1, v.children = [c0, c1] ∧ c0.well_formed = true ∧ c1.well_formed = true := by
  cases v with
  | mk t s hd nm n o cs =>
    rw [column_view.well_formed_eq] at h
    simp only [column_view.type] at hcat
    cases hc : t.category with
    | other => simp [hc] at h
    | fixed_width w => exact absurd hc (hcat w)
    | string_view =>
      rcases cs with _ | ⟨c0, _ | ⟨c1, _ | ⟨c2, rest⟩⟩⟩ <;> simp [hc] at h
      exact ⟨c0, c1, rfl, column_view.is_plain_well_formed h.2.1 rfl,
        column_view.is_plain_well_formed h.2.2 rfl⟩
    | list_view =>
      rcases cs with _ | ⟨c0, _ | ⟨c1, _ | ⟨c2, rest⟩⟩⟩ <;> simp [hc] at h
      exact ⟨c0, c1, rfl, column_view.is_plain_well_formed h.2.1 rfl, h.2.2⟩
    | dictionary32 =>
      rcases cs with _ | ⟨c0, _ | ⟨c1, _ | ⟨c2, rest⟩⟩⟩ <;> simp [hc] at h
      exact ⟨c0, c1, rfl, column_view.is_plain_well_formed h.2.1 rfl, h.2.2⟩

theorem fetch_mask_buffer_total {v : column_view}
    (h : v.null_count = 0 ∨ v.null_mask.isSome = true) :
    ∃ b, fetch_mask_buffer v = .ok b := by
  rcases h with h | h
  · exact ⟨none, fetch_mask_buffer_no_nulls h⟩
  · obtain ⟨m, hm⟩ := Option.isSome_iff_exists.mp h
    unfold fetch_mask_buffer
    simp only [column_view.copy_bitmask, hm, Option.map_some']
    split
    · split
      · exact ⟨_, rfl⟩
      · rename_i hsrc
        split at hsrc <;> cases hsrc
    · exact ⟨_, rfl⟩

theorem normalize_total {extra : Int} {v : column_view} (h : v.well_formed = true)
    (hcat : ∀ w, v.type.category ≠ .fixed_width w) :
    ∃ nv, normalize extra v = .ok nv ∧ nv.well_formed = true := by
  obtain ⟨c0, c1, hc, _, _⟩ := column_view.well_formed_children h hcat
  have hcopy : ∃ nv, column_from_view v = .ok nv ∧ nv.well_formed = true :=
    column_view.materialize_total v.depth v _ _ _ le_rfl h (column_view.well_formed_mask h)
  unfold normalize
  split
  · exact hcopy
  · simp only [column_view.child, hc, List.get?_cons_zero]
    split
    · exact hcopy
    · exact ⟨v, rfl, h⟩

/-- Every well-formed view is converted, for every budget above its depth. -/
theorem type_dispatcher_fuel_total : ∀ (f : Nat) (v : column_view),
    v.depth < f → v.well_formed = true → ∃ a, type_dispatcher_fuel f v = .ok a := by
  intro f
  induction f with
  | zero => intro v hf; omega
  | succ f ih =>
    intro v hf hwf
    have hcompound : (∀ w, v.type.category ≠ .fixed_width w) → ∀ extra : Int,
        ∃ nv n0 n1 a0 a1, normalize extra v = .ok nv ∧ nv.children = [n0, n1] ∧
          type_dispatcher_fuel f n0 = .ok a0 ∧ type_dispatcher_fuel f n1 = .ok a1 ∧
          ∃ b, fetch_mask_buffer nv = .ok b := by
      intro hcat extra
      obtain ⟨nv, hn, hnwf⟩ := @normalize_total extra v hwf hcat
      obtain ⟨hty, _⟩ := normalize_keeps hn
      obtain ⟨n0, n1, hc, h0, h1⟩ := column_view.well_formed_children hnwf (by rw [hty]; exact hcat)
      have hd := normalize_depth hn
      have hd0 : n0.depth < nv.depth := column_view.depth_child_lt (by simp [hc])
      have hd1 : n1.depth < nv.depth := column_view.depth_child_lt (by simp [hc])
      obtain ⟨a0, ha0⟩ := ih n0 (by omega) h0
      obtain ⟨a1, ha1⟩ := ih n1 (by omega) h1
      exact ⟨nv, n0, n1, a0, a1, hn, hc, ha0, ha1,
        fetch_mask_buffer_total (column_view.well_formed_mask hnwf)⟩
    simp only [type_dispatcher_fuel]
    cases hcat : v.type.category with
    | other =>
      cases v with
      | mk t s hd nm n o cs =>
        rw [column_view.well_formed_eq] at hwf
        simp only [column_view.type] at hcat
        simp [hcat] at hwf
    | fixed_width w =>
      obtain ⟨b, hb⟩ := fetch_mask_buffer_total (column_view.well_formed_mask hwf)
      exact ⟨_, by simp only [dispatch_to_arrow.fixed_width, hb]; rfl⟩
    | string_view =>
      obtain ⟨nv, n0, n1, a0, a1, hn, hc, h0, h1, b, hb⟩ := hcompound (by simp [hcat]) 1
      rw [dispatch_to_arrow.string_view_of_normalized hn hc h0 h1, hb]
      exact ⟨_, rfl⟩
    | list_view =>
      obtain ⟨nv, n0, n1, a0, a1, hn, hc, h0, h1, b, hb⟩ := hcompound (by simp [hcat]) 1
      rw [dispatch_to_arrow.list_view_of_normalized hn hc h0 h1, hb]
      exact ⟨_, rfl⟩
    | dictionary32 =>
      obtain ⟨nv, n0, n1, a0, a1, hn, hc, h0, h1, b, hb⟩ := hcompound (by simp [hcat]) 0
      rw [dispatch_to_arrow.dictionary32_of_normalized hn hc h0 h1, hb]
      exact ⟨_, rfl⟩

/-- Every well-formed view of a supported type is converted to an array. -/
theorem type_dispatcher_total {v : column_view} (h : v.well_formed = true) :
    ∃ a, type_dispatcher v = .ok a :=
  type_dispatcher_fuel_total _ v (Nat.lt_succ_self _) h

/-- Every table of well-formed columns with as many names is converted. -/
theorem cudf_to_arrow_total (input : table_view) (column_names : List String)
    (hlen : column_names.length = input.length)
    (hwf : ∀ c ∈ input, c.well_formed = true) :
    ∃ t, detail.cudf_to_arrow input column_names = .ok t := by
  obtain ⟨arrays, h⟩ := transform_total (f := type_dispatcher)
    fun c hc => type_dispatcher_total (hwf c hc)
  exact ⟨_, by simp only [detail.cudf_to_arrow, hlen, h, if_true]; rfl⟩

/-! ## Claims -/

/-- C1: on the view `slice(column, 0, 3)` of the column `[1, null, 3, 4, 5]`
(null count 1, offset 0) `fetch_mask_buffer` returns a one-byte bitmap whose
bits 0..2 are the validity `[1, 0, 1]` of the three rows, and whose bits 3 and
4, which lie beyond the size of the view in the last byte of the bitmap, are
set: `ZeroPadding` clears the bytes after the bitmap, not the trailing bits
of its last byte. -/
theorem fetch_mask_buffer_trailing_bits_kept :
    ∃ b : Buffer, fetch_mask_buffer sliced_view = .ok (some b) ∧
      b.size = BytesForBits sliced_view.size ∧
      (∀ i, i < sliced_view.size → b.bit i = sliced_view.is_valid i) ∧
      sliced_view.size ≤ 3 ∧ 3 < 8 * b.size ∧ b.bit 3 = true ∧ b.bit 4 = true :=
  ⟨⟨1, 29 :: List.replicate 63 0⟩, by decide, by decide, by decide, by decide, by decide,
    by decide, by decide⟩

/-- C3: whenever the number of column names differs from the number of columns,
`detail::cudf_to_arrow` fails with the schema-mismatch error, whatever the
columns are. -/
theorem cudf_to_arrow_schema_mismatch (input : table_view) (column_names : List String)
    (h : column_names.length ≠ input.length) :
    detail.cudf_to_arrow input column_names = .error .schema_mismatch := by
  simp [detail.cudf_to_arrow, h]

theorem cudf_to_arrow_schema_mismatch_witness :
    (([] : List String).length ≠ [int32_view].length ∧
      detail.cudf_to_arrow [int32_view] [] = .error .schema_mismatch) ∧
    ((["a"] : List String).length ≠ ([] : table_view).length ∧
      detail.cudf_to_arrow [] ["a"] = .error .schema_mismatch) :=
  ⟨⟨by decide, cudf_to_arrow_schema_mismatch [int32_view] [] (by decide)⟩,
    ⟨by decide, cudf_to_arrow_schema_mismatch [] ["a"] (by decide)⟩⟩

/-- C9: a fixed-width view without nulls, with or without a mask pointer and at
any size and offset, converts to a fixed-width array without validity buffer,
with null count 0, the size of the view, and a data buffer of exactly
`sizeof(T) * size` bytes, which are the bytes of the rows of the view. -/
theorem fixed_width_without_nulls (v : column_view) (w : Nat)
    (hw : v.type.category = .fixed_width w) (hn : v.null_count = 0) :
    fetch_mask_buffer v = .ok none ∧
    ∃ data : Buffer,
      type_dispatcher v = .ok (.primitive v.type v.size (some data) none 0) ∧
      data.size = w * v.size ∧ data.bytes.length = w * v.size ∧
      data.bytes = device_read v.head (w * v.offset) (w * v.size) := by
  refine ⟨fetch_mask_buffer_no_nulls hn, fetch_data_buffer w v, ?_, rfl, ?_,
    fetch_data_buffer_bytes w v⟩
  · rw [type_dispatcher_fixed_width hw]
    simp [dispatch_to_arrow.fixed_width, fetch_mask_buffer_no_nulls hn, to_arrow_array, hn]
  · rw [fetch_data_buffer_bytes, device_read_length]

theorem fixed_width_without_nulls_witness :
    fetch_mask_buffer int32_view = .ok none ∧
    ∃ data : Buffer,
      type_dispatcher int32_view = .ok (.primitive int32_view.type int32_view.size (some data) none 0) ∧
      data.size = 4 * int32_view.size ∧ data.bytes.length = 4 * int32_view.size ∧
      data.bytes = device_read int32_view.head (4 * int32_view.offset) (4 * int32_view.size) :=
  fixed_width_without_nulls int32_view 4 (by decide) (by decide)

/-- C10: a strings view without children and with offset 0 is not converted:
the test at line 112 reads `input.child(0)` before the number of children is
looked at, so the conversion ends in an out-of-bounds access.  The empty string
array of line 119 is returned only when the offset is not zero. -/
theorem string_view_without_children (v : column_view)
    (hs : v.type.category = .string_view) (hc : v.num_children = 0) :
    (v.offset = 0 → type_dispatcher v = .error .out_of_bounds) ∧
    (v.offset ≠ 0 → type_dispatcher v = .ok (.string 0 none none none (-1))) := by
  have hc2 : v.children = [] := List.length_eq_zero.mp hc
  rw [type_dispatcher_string_view hs]
  constructor
  · intro ho
    simp [dispatch_to_arrow.string_view, normalize, ho, column_view.child, hc2]
  · intro ho
    cases v with
    | mk t s hd nm c o cs =>
      simp only [column_view.children] at hc2
      simp only [column_view.type] at hs
      simp only [column_view.offset] at ho
      subst hc2
      simp [dispatch_to_arrow.string_view, normalize, column_view.offset, ho, column_from_view,
        column_view.materialize_eq, hs, column_view.children,
        dispatch_to_arrow.fetch_child_array, transform]

theorem string_view_without_children_witness :
    empty_strings_view.offset = 0 ∧ type_dispatcher empty_strings_view = .error .out_of_bounds :=
  ⟨rfl, (string_view_without_children empty_strings_view (by decide) (by decide)).1 rfl⟩

/-- C4: for a table whose columns the dispatcher converts and a name list of
the same length `k`, `detail::cudf_to_arrow` returns a table with `k` arrays
and `k` fields; array `i` is the conversion of column `i`, and field `i`
carries name `i` and the type of array `i`.  The dispatcher converts every
well-formed column of a supported type.  The empty table with the empty name
list converts to the table with empty schema and no arrays. -/
theorem cudf_to_arrow_assembles :
    (∀ (input : table_view) (column_names : List String),
      column_names.length = input.length →
      (∀ c ∈ input, ∃ a, type_dispatcher c = .ok a) →
      ∃ t : Table, detail.cudf_to_arrow input column_names = .ok t ∧
        t.columns.length = input.length ∧ t.schema.length = input.length ∧
        ∀ i, i < input.length → ∃ c a name, input.get? i = some c ∧
          column_names.get? i = some name ∧ t.columns.get? i = some a ∧
          type_dispatcher c = .ok a ∧ t.schema.get? i = some ⟨name, a.type⟩) ∧
    (∀ input : table_view, (∀ c ∈ input, c.well_formed = true) →
      ∀ c ∈ input, ∃ a, type_dispatcher c = .ok a) ∧
    detail.cudf_to_arrow [] [] = .ok ⟨[], []⟩ := by
  refine ⟨?_, fun input hwf c hc => type_dispatcher_total (hwf c hc), rfl⟩
  intro input column_names hlen hconv
  obtain ⟨arrays, harr⟩ := transform_total hconv
  have hal := transform_length harr
  refine ⟨⟨List.zipWith (fun array name => arrow.Field.mk name array.type) arrays column_names,
    arrays⟩, ?_, hal, ?_, ?_⟩
  · simp [detail.cudf_to_arrow, hlen, harr]
  · simp [hal, hlen]
  · intro i hi
    have hc : input.get? i = some (input.get ⟨i, hi⟩) := List.get?_eq_get hi
    have hn : column_names.get? i = some (column_names.get ⟨i, hlen ▸ hi⟩) :=
      List.get?_eq_get _
    obtain ⟨a, ha, hfa⟩ := transform_get harr i _ hc
    refine ⟨_, a, _, hc, hn, ha, hfa, ?_⟩
    simp only [List.get?_eq_getElem?] at ha hn ⊢
    simp [List.getElem?_zipWith, ha, hn]

theorem cudf_to_arrow_assembles_witness :
    ∃ t : Table, detail.cudf_to_arrow [strings_view, list_view_example] ["s", "l"] = .ok t ∧
      t.columns.length = 2 ∧ t.schema.length = 2 ∧
      ∀ i, i < 2 → ∃ c a name, [strings_view, list_view_example].get? i = some c ∧
        ["s", "l"].get? i = some name ∧ t.columns.get? i = some a ∧
        type_dispatcher c = .ok a ∧ t.schema.get? i = some ⟨name, a.type⟩ :=
  cudf_to_arrow_assembles.1 [strings_view, list_view_example] ["s", "l"] rfl
    (cudf_to_arrow_assembles.2.1 [strings_view, list_view_example] (by
      intro c hc
      simp only [List.mem_cons, List.mem_singleton, List.not_mem_nil, or_false] at hc
      rcases hc with rfl | rfl <;> decide))

/-- C5: a view whose type tag is none of fixed-width, string, dictionary or
list is refused with the unsupported-type error; a view that holds such a
column at any depth (in the values of a list, the indices or keys of a
dictionary) is not converted either; and a table with such a column yields no
table, whatever the names are. -/
theorem unsupported_type_fails :
    (∀ v : column_view, v.type.category = .other →
      type_dispatcher v = .error .unsupported_type) ∧
    (∀ v : column_view, contains_unsupported v → ∀ a, type_dispatcher v ≠ .ok a) ∧
    (∀ (input : table_view) (column_names : List String),
      (∃ c ∈ input, contains_unsupported c) →
      ∀ t, detail.cudf_to_arrow input column_names ≠ .ok t) := by
  refine ⟨fun v hv => type_dispatcher_other hv, fun v hv a => hv.fuel_fails _ a, ?_⟩
  rintro input column_names ⟨c, hc, hcu⟩ t
  unfold detail.cudf_to_arrow
  split
  · cases hf : transform type_dispatcher input with
    | error e => simp
    | ok arrays =>
      have hfail : ∀ a, type_dispatcher c ≠ .ok a := fun a => hcu.fuel_fails _ a
      exact absurd hf (transform_fails hc hfail _)
  · simp

theorem unsupported_type_fails_witness :
    type_dispatcher (.mk .EMPTY 0 [] none 0 0 []) = .error .unsupported_type ∧
    (∀ a, type_dispatcher list_of_empty_view ≠ .ok a) ∧
    (∀ t, detail.cudf_to_arrow [int32_view, list_of_empty_view] ["a", "b"] ≠ .ok t) :=
  have h : contains_unsupported list_of_empty_view :=
    .list_values _ _ _ _ rfl rfl (.here _ rfl)
  ⟨unsupported_type_fails.1 _ rfl, unsupported_type_fails.2.1 _ h,
    unsupported_type_fails.2.2 _ _ ⟨_, by simp, h⟩⟩

/-- C6: a strings view with an offsets child of `size + 1` entries and a
character child converts to a string array with the size and the null count
of the view, whose offsets buffer and character buffer are the data bytes of
children 0 and 1 of the normalized view and whose validity is
`fetch_mask_buffer` of the view.  For `["a", null, "ccc"]` the offsets are
`[0, 1, 1, 4]`, the characters `accc`, the validity bits `[1, 0, 1]` and the
null count 1. -/
theorem string_view_converts :
    (∀ v c0 c1 : column_view, v.type.category = .string_view → v.children = [c0, c1] →
      c0.size = v.size + 1 → c0.type = .INT32 → c1.type = .INT8 →
      c0.null_count = 0 → c1.null_count = 0 →
      ∃ nv n0 n1, normalize 1 v = .ok nv ∧ nv.children = [n0, n1] ∧
        type_dispatcher v = (fetch_mask_buffer v).map fun validity =>
          .string v.size (some (fetch_data_buffer 4 n0)) (some (fetch_data_buffer 1 n1))
            validity v.null_count) ∧
    (∃ offsets data validity : Buffer,
      type_dispatcher strings_view = .ok (.string 3 (some offsets) (some data) (some validity) 1) ∧
      offsets.int32_values 4 = [0, 1, 1, 4] ∧ data.bytes = [97, 99, 99, 99] ∧
      (List.range 3).map validity.bit = [true, false, true]) := by
  constructor
  · intro v c0 c1 hs hc hsize ht0 ht1 hn0 hn1
    rw [type_dispatcher_string_view hs]
    by_cases ho : v.offset = 0
    · have hn : normalize 1 v = .ok v :=
        normalize_consistent ho hc (by rw [hsize]; push_cast; ring)
      refine ⟨v, c0, c1, hn, hc, ?_⟩
      rw [dispatch_to_arrow.string_view_of_normalized hn hc
        (type_dispatcher_leaf (w := 4) (by rw [ht0]; rfl) hn0)
        (type_dispatcher_leaf (w := 1) (by rw [ht1]; rfl) hn1)]
      rfl
    · obtain ⟨m, n1, hm, hmc, hmt, hmn⟩ := column_from_view_string hs hc
      have hn : normalize 1 v = .ok m := by rw [normalize_offset ho, hm]
      obtain ⟨_, hsz, hnc, _⟩ := normalize_keeps hn
      refine ⟨m, _, n1, hn, hmc, ?_⟩
      rw [dispatch_to_arrow.string_view_of_normalized hn hmc
        (type_dispatcher_leaf (w := 4) rfl rfl)
        (type_dispatcher_leaf (w := 1) (by rw [hmt]; rfl) hmn),
        fetch_mask_buffer_column_from_view ho hm, hsz, hnc]
      rfl
  · exact ⟨_, _, _, rfl, by decide, by decide, by decide⟩

theorem string_view_converts_witness :
    ∃ nv n0 n1, normalize 1 strings_view = .ok nv ∧ nv.children = [n0, n1] ∧
      type_dispatcher strings_view =
        (fetch_mask_buffer strings_view).map fun validity =>
          .string strings_view.size (some (fetch_data_buffer 4 n0))
            (some (fetch_data_buffer 1 n1)) validity strings_view.null_count :=
  string_view_converts.1 strings_view _ _ rfl rfl rfl rfl rfl rfl rfl

/-- C7: a list view with an offsets child of `size + 1` entries and a values
child converts to a list array with the size and the null count of the view,
whose offsets buffer holds the data bytes of child 0 of the normalized view,
whose values are the dispatcher's conversion of child 1 of the normalized
view, and whose validity is `fetch_mask_buffer` of the view.  For
`[[1, 2], [], [3]]` the offsets are `[0, 2, 2, 3]` and the values `[1, 2, 3]`. -/
theorem list_view_converts :
    (∀ v c0 c1 nv : column_view, v.type.category = .list_view → v.children = [c0, c1] →
      c0.size = v.size + 1 → c0.type = .INT32 → c0.null_count = 0 →
      normalize 1 v = .ok nv →
      ∃ n0 n1, nv.children = [n0, n1] ∧ ∀ values, type_dispatcher n1 = .ok values →
        type_dispatcher v = (fetch_mask_buffer v).map fun validity =>
          .list (.list values.type) v.size (some (fetch_data_buffer 4 n0)) values
            validity v.null_count) ∧
    (∃ offsets data : Buffer,
      type_dispatcher list_view_example =
        .ok (.list (.list (.primitive .INT32)) 3 (some offsets)
          (.primitive .INT32 3 (some data) none 0) none 0) ∧
      offsets.int32_values 4 = [0, 2, 2, 3] ∧ data.int32_values 3 = [1, 2, 3]) := by
  constructor
  · intro v c0 c1 nv hs hc hsize ht0 hn0 hn
    rw [type_dispatcher_list_view hs]
    by_cases ho : v.offset = 0
    · have hn2 : normalize 1 v = .ok v :=
        normalize_consistent ho hc (by rw [hsize]; push_cast; ring)
      obtain rfl : v = nv := by rw [hn2] at hn; cases hn; rfl
      refine ⟨c0, c1, hc, fun values hv => ?_⟩
      rw [dispatch_to_arrow.list_view_of_normalized hn hc
        (type_dispatcher_leaf (w := 4) (by rw [ht0]; rfl) hn0) hv]
      rfl
    · have hm : column_from_view v = .ok nv := by rw [← normalize_offset ho]; exact hn
      obtain ⟨n1, hmc⟩ := column_from_view_list hs hc hm
      obtain ⟨_, hsz, hnc, _⟩ := normalize_keeps hn
      refine ⟨_, n1, hmc, fun values hv => ?_⟩
      rw [dispatch_to_arrow.list_view_of_normalized hn hmc
        (type_dispatcher_leaf (w := 4) rfl rfl) hv,
        fetch_mask_buffer_column_from_view ho hm, hsz, hnc]
      rfl
  · exact ⟨_, _, rfl, by decide, by decide⟩

theorem list_view_converts_witness :
    ∃ n0 n1, list_view_example.children = [n0, n1] ∧ ∀ values, type_dispatcher n1 = .ok values →
      type_dispatcher list_view_example =
        (fetch_mask_buffer list_view_example).map fun validity =>
          .list (.list values.type) list_view_example.size (some (fetch_data_buffer 4 n0)) values
            validity list_view_example.null_count :=
  list_view_converts.1 list_view_example _ _ list_view_example rfl rfl rfl rfl rfl rfl

/-- C8: a dictionary view with an indices child of one entry per row and a keys
child converts to a dictionary array: its indices array has the size and the
null count of the view, the data bytes of child 0 of the normalized view and
the validity `fetch_mask_buffer` of the view; its dictionary is the
dispatcher's conversion of child 1 of the normalized view, whose type is the
value type of the dictionary type.  For the keys `["x", "y"]` and the indices
`[1, 0, 1]` without nulls the indices array is `[1, 0, 1]` without validity
buffer and the dictionary is the string array `["x", "y"]`. -/
theorem dictionary32_converts :
    (∀ (v c0 c1 nv : column_view) (w : Nat), v.type.category = .dictionary32 →
      v.children = [c0, c1] → c0.size = v.size → c0.type.category = .fixed_width w →
      c0.null_count = 0 → normalize 0 v = .ok nv →
      ∃ n0 n1, nv.children = [n0, n1] ∧ ∀ dictionary, type_dispatcher n1 = .ok dictionary →
        type_dispatcher v = (fetch_mask_buffer v).map fun validity =>
          .dictionary (.dictionary (.primitive .INT32) dictionary.type)
            (.primitive .INT32 v.size (some (fetch_data_buffer w n0)) validity v.null_count)
            dictionary) ∧
    (∃ indices offsets data : Buffer,
      type_dispatcher dictionary_view =
        .ok (.dictionary (.dictionary (.primitive .INT32) .string)
          (.primitive .INT32 3 (some indices) none 0)
          (.string 2 (some offsets) (some data) none 0)) ∧
      indices.int32_values 3 = [1, 0, 1] ∧
      offsets.int32_values 3 = [0, 1, 2] ∧ data.bytes = [120, 121]) := by
  constructor
  · intro v c0 c1 nv w hs hc hsize hw0 hn0 hn
    rw [type_dispatcher_dictionary32 hs]
    by_cases ho : v.offset = 0
    · have hn2 : normalize 0 v = .ok v :=
        normalize_consistent ho hc (by rw [hsize]; ring)
      obtain rfl : v = nv := by rw [hn2] at hn; cases hn; rfl
      refine ⟨c0, c1, hc, fun dictionary hv => ?_⟩
      rw [dispatch_to_arrow.dictionary32_of_normalized hn hc (type_dispatcher_leaf hw0 hn0) hv]
      rfl
    · have hm : column_from_view v = .ok nv := by rw [← normalize_offset ho]; exact hn
      obtain ⟨n0, n1, hmc, hind⟩ := column_from_view_dictionary hs hc hm
      obtain ⟨hit, _, _, hinc, _⟩ := column_view.materialize_fields hind
      obtain ⟨_, hsz, hnc, _⟩ := normalize_keeps hn
      refine ⟨n0, n1, hmc, fun dictionary hv => ?_⟩
      rw [dispatch_to_arrow.dictionary32_of_normalized hn hmc
        (type_dispatcher_leaf (w := w) (by rw [hit]; exact hw0) hinc) hv,
        fetch_mask_buffer_column_from_view ho hm, hsz, hnc]
      rfl
  · exact ⟨_, _, _, rfl, by decide, by decide, by decide⟩

theorem dictionary32_converts_witness :
    ∃ n0 n1, dictionary_view.children = [n0, n1] ∧
      ∀ dictionary, type_dispatcher n1 = .ok dictionary →
        type_dispatcher dictionary_view =
          (fetch_mask_buffer dictionary_view).map fun validity =>
            .dictionary (.dictionary (.primitive .INT32) dictionary.type)
              (.primitive .INT32 dictionary_view.size (some (fetch_data_buffer 4 n0)) validity
                dictionary_view.null_count)
              dictionary :=
  dictionary32_converts.1 dictionary_view _ _ dictionary_view 4 rfl rfl rfl rfl rfl rfl

/-- C2: conversion is offset-invariant.  For a view `v` with non-zero offset
(a strings view carrying its children) and the column `m` that holds the same
rows at offset 0, the dispatcher produces the same array for `v` and for `m`:
same size, null count, buffers and child arrays. -/
theorem conversion_offset_invariant (v m : column_view) (ho : v.offset ≠ 0)
    (hch : v.type.category = .string_view → v.num_children ≠ 0)
    (hm : column_from_view v = .ok m) :
    m.offset = 0 ∧ m.size = v.size ∧ type_dispatcher v = type_dispatcher m := by
  obtain ⟨hty, hsz, hoff, hnc, _⟩ := column_view.materialize_fields hm
  refine ⟨hoff, hsz, ?_⟩
  have hnv : ∀ extra : Int, normalize extra v = .ok m := fun extra => by
    rw [normalize_offset ho, hm]
  cases hcat : v.type.category with
  | other =>
    rw [type_dispatcher_other hcat, type_dispatcher_other (by rw [hty]; exact hcat)]
  | fixed_width w =>
    rw [type_dispatcher_fixed_width hcat, type_dispatcher_fixed_width (by rw [hty]; exact hcat)]
    simp only [dispatch_to_arrow.fixed_width, fetch_mask_buffer_column_from_view ho hm,
      column_from_view_fixed_width hcat hm, hsz, hnc, hty]
  | string_view =>
    rw [type_dispatcher_string_view hcat, type_dispatcher_string_view (by rw [hty]; exact hcat)]
    apply dispatch_to_arrow.string_view_of_normalize_eq
    rw [hnv 1]
    rcases hcs : v.children with _ | ⟨c0, _ | ⟨c1, rest⟩⟩
    · exact absurd (by simp [column_view.num_children, hcs]) (hch hcat)
    · exact absurd hm (column_from_view_one_child hcs (by simp [hcat]))
    · obtain ⟨m2, n1, hm2, hmc, _⟩ := column_from_view_string hcat hcs
      obtain rfl : m2 = m := by rw [hm] at hm2; cases hm2; rfl
      exact (normalize_consistent hoff hmc (by
        rw [column_view.sliced_offsets_size, hsz]; push_cast; ring)).symm
  | list_view =>
    rw [type_dispatcher_list_view hcat, type_dispatcher_list_view (by rw [hty]; exact hcat)]
    rcases hcs : v.children with _ | ⟨c0, _ | ⟨c1, rest⟩⟩
    · have hmc := column_from_view_no_children hcs hm
      have hnm : normalize 1 m = .error .out_of_bounds := by
        simp [normalize, hoff, column_view.child, hmc]
      simp [dispatch_to_arrow.list_view, dispatch_to_arrow.fetch_child_array, hnv 1, hnm, hmc,
        transform, vector_at]
    · exact absurd hm (column_from_view_one_child hcs (by simp [hcat]))
    · apply dispatch_to_arrow.list_view_of_normalize_eq
      rw [hnv 1]
      obtain ⟨values, hmc⟩ := column_from_view_list hcat hcs hm
      exact (normalize_consistent hoff hmc (by
        rw [column_view.sliced_offsets_size, hsz]; push_cast; ring)).symm
  | dictionary32 =>
    rw [type_dispatcher_dictionary32 hcat,
      type_dispatcher_dictionary32 (by rw [hty]; exact hcat)]
    rcases hcs : v.children with _ | ⟨c0, _ | ⟨c1, rest⟩⟩
    · have hmc := column_from_view_no_children hcs hm
      have hnm : normalize 0 m = .error .out_of_bounds := by
        simp [normalize, hoff, column_view.child, hmc]
      simp [dispatch_to_arrow.dictionary32, dispatch_to_arrow.fetch_child_array, hnv 0, hnm,
        hmc, transform, vector_at]
    · exact absurd hm (column_from_view_one_child hcs (by simp [hcat]))
    · apply dispatch_to_arrow.dictionary32_of_normalize_eq
      rw [hnv 0]
      obtain ⟨indices, keys, hmc, hind⟩ := column_from_view_dictionary hcat hcs hm
      obtain ⟨_, hisz, _⟩ := column_view.materialize_fields hind
      exact (normalize_consistent hoff hmc (by rw [hisz, hsz]; ring)).symm

theorem conversion_offset_invariant_witness :
    sliced_strings_view.offset ≠ 0 ∧
    ∃ m, column_from_view sliced_strings_view = .ok m ∧ m.offset = 0 ∧
      m.size = sliced_strings_view.size ∧
      type_dispatcher sliced_strings_view = type_dispatcher m :=
  ⟨by decide, _, rfl,
    conversion_offset_invariant sliced_strings_view _ (by decide) (fun _ => by decide) rfl⟩

end cudf
